import Mathlib

/-!
Shallow embedding of the GLiNER extraction service orchestration layer
(`services/gliner_service/extractor.py`, `config.py`, `models.py`).

Modelling conventions:
* Python floats (confidence scores, thresholds) are modelled as rationals.
* Python exceptions are modelled with `Except Unit`; a `try/except` block
  becomes a `match` on the guarded computation.
* Wall-clock timing (`processing_time_ms`) is omitted: real time is outside
  the embedding and no verified property depends on it.
* Dict keys present with a null value are modelled as absent keys.
-/

/-- Output model `models.ExtractedEntity`.  Pydantic validates `confidence`
with `ge=0, le=1`, so construction with an out-of-range confidence raises a
validation error (modelled in `checkConfidence`).  The span is the raw pair
taken from the hit record: `start` present, `end` possibly absent. -/
structure ExtractedEntity where
  name : String
  type : String
  confidence : Option ℚ
  span : Option (Int × Option Int)
deriving DecidableEq

/-- Output model `models.ExtractedRelation`; `confidence` is validated with
`ge=0, le=1` exactly as for entities. -/
structure ExtractedRelation where
  subject : String
  predicate : String
  object : String
  confidence : Option ℚ
deriving DecidableEq

/-- Output model `models.ExtractionResult` (timing field omitted, see header). -/
structure ExtractionResult where
  entities : List ExtractedEntity
  relations : List ExtractedRelation
deriving DecidableEq, Inhabited

/-- Decidable equality for `Except`, used to evaluate concrete runs of the
fallible operations. -/
instance {ε α : Type} [DecidableEq ε] [DecidableEq α] : DecidableEq (Except ε α) :=
  fun x y =>
    match x, y with
    | .ok a, .ok b =>
      if h : a = b then .isTrue (by rw [h]) else .isFalse (by simp [h])
    | .error a, .error b =>
      if h : a = b then .isTrue (by rw [h]) else .isFalse (by simp [h])
    | .ok _, .error _ => .isFalse (by simp)
    | .error _, .ok _ => .isFalse (by simp)

/-- Pydantic bounds check `Field(None, ge=0, le=1)` on a confidence value:
an out-of-range value raises a validation error; absent values pass. -/
def checkConfidence (c : Option ℚ) : Except Unit (Option ℚ) :=
  match c with
  | none => .ok none
  | some x => if 0 ≤ x ∧ x ≤ 1 then .ok (some x) else .error ()

/-- Raw entity hit: a `dict` models a dict hit with optional `text`, `name`,
`score`, `confidence`, `start`, `end` keys plus its `str()` rendering
(`srepr`, the last-resort surface string); `str` models any non-dict hit,
which the source coerces via `str(item)`. -/
inductive EntHit where
  | dict (text? name? : Option String) (score? conf? : Option ℚ)
      (start? stop? : Option Int) (srepr : String)
  | str (s : String)
deriving DecidableEq

/-- Raw relation endpoint (subject/object element): a dict with optional
`text`/`name` and `confidence`/`score` keys, or anything else coerced by
`str`. -/
inductive Endp where
  | dict (text? name? : Option String) (conf? score? : Option ℚ) (srepr : String)
  | str (s : String)
deriving DecidableEq

/-- Helper `extract_entity_text`: `text` before `name` before `str(entity)`
for dict endpoints; `str(entity)` otherwise. -/
def endpText : Endp → String
  | .dict text? name? _ _ srepr => text?.getD (name?.getD srepr)
  | .str s => s

/-- Helper `extract_entity_confidence`: `confidence` before `score` for dict
endpoints; absent otherwise. -/
def endpConf : Endp → Option ℚ
  | .dict _ _ conf? score? _ => conf? <|> score?
  | .str _ => none

/-- Raw relation hit: a tuple of length ≥ 2 (`rest` holds the elements after
subject and object, each possibly null), a dict with `subject|head`,
`object|tail` and `score|confidence` keys, or any other shape — which the
source silently skips. -/
inductive RelHit where
  | tup (subj obj : Endp) (rest : List (Option ℚ))
  | dict (subject? head? object? tail? : Option Endp) (score? conf? : Option ℚ)
  | other
deriving DecidableEq

/-- Raw result of a capability extraction call: the `"entities"` and
`"relation_extraction"` mappings (absent keys modelled as `[]`); a mapping
value that is not a list is modelled as `none` and skipped by the parser. -/
structure RawResult where
  entities : List (String × Option (List EntHit))
  relations : List (String × Option (List RelHit))
deriving DecidableEq

/-- Normalisation of one raw entity hit (`extractor.py` lines 101–120,
duplicated verbatim at lines 450–467).  Surface precedence: `text` before
`name` before `str(item)`; numeric precedence: `score` before `confidence`.
A span is attached only when spans are requested and `start` is present.
Constructing the pydantic model validates the confidence bounds. -/
def parseEntityItem (etype : String) (incConf incSpans : Bool) :
    EntHit → Except Unit ExtractedEntity
  | .dict text? name? score? conf? start? stop? srepr => do
    let c ← checkConfidence (if incConf then score? <|> conf? else none)
    .ok { name := text?.getD (name?.getD srepr)
          type := etype
          confidence := c
          span := match incSpans, start? with
                  | true, some a => some (a, stop?)
                  | _, _ => none }
  | .str s => .ok { name := s, type := etype, confidence := none, span := none }

/-- Entity loop of the normaliser: iterate the `"entities"` mapping, skipping
values that are not lists, concatenating the per-type hits in order. -/
def parseEntities (incConf incSpans : Bool) :
    List (String × Option (List EntHit)) → Except Unit (List ExtractedEntity)
  | [] => .ok []
  | (_, none) :: rest => parseEntities incConf incSpans rest
  | (t, some items) :: rest => do
    let es ← items.mapM (parseEntityItem t incConf incSpans)
    let more ← parseEntities incConf incSpans rest
    .ok (es ++ more)

/-- Normalisation of one raw relation hit (`extractor.py` lines 140–171,
duplicated verbatim at lines 486–516).  For a tuple hit the confidence is the
third element when present and non-null, else the mean of the endpoint
confidences when both are present, else absent; for a dict hit it is `score`
before `confidence`.  Unrecognised shapes yield `none` (skipped). -/
def parseRelItem (rtype : String) (incConf : Bool) :
    RelHit → Except Unit (Option ExtractedRelation)
  | .tup subj obj rest => do
    let rc ← checkConfidence
      (if incConf then
        match rest.head? with
        | some (some c) => some c
        | _ =>
          match endpConf subj, endpConf obj with
          | some a, some b => some ((a + b) / 2)
          | _, _ => none
       else none)
    .ok (some { subject := endpText subj, predicate := rtype,
                object := endpText obj, confidence := rc })
  | .dict subject? head? object? tail? score? conf? => do
    let rc ← checkConfidence (if incConf then score? <|> conf? else none)
    .ok (some { subject := endpText (subject?.getD (head?.getD (.str "")))
                predicate := rtype
                object := endpText (object?.getD (tail?.getD (.str "")))
                confidence := rc })
  | .other => .ok none

/-- Inner relation loop: normalise every hit of one relation type in order,
dropping skipped shapes. -/
def parseRelItems (rtype : String) (incConf : Bool) :
    List RelHit → Except Unit (List ExtractedRelation)
  | [] => .ok []
  | h :: t => do
    let r? ← parseRelItem rtype incConf h
    let more ← parseRelItems rtype incConf t
    .ok (match r? with | some r => r :: more | none => more)

/-- Relation loop of the normaliser: iterate the `"relation_extraction"`
mapping, skipping values that are not lists. -/
def parseRelations (incConf : Bool) :
    List (String × Option (List RelHit)) → Except Unit (List ExtractedRelation)
  | [] => .ok []
  | (_, none) :: rest => parseRelations incConf rest
  | (t, some items) :: rest => do
    let rs ← parseRelItems t incConf items
    let more ← parseRelations incConf rest
    .ok (rs ++ more)

/-- The normaliser `GLiNERExtractor._parse_extraction_result` (also the body
of `extract`, which duplicates the same loops): entities first, then
relations; a validation error anywhere aborts the call. -/
def parseExtractionResult (raw : RawResult) (incConf incSpans : Bool) :
    Except Unit ExtractionResult := do
  let es ← parseEntities incConf incSpans raw.entities
  let rs ← parseRelations incConf raw.relations
  .ok { entities := es, relations := rs }

/-- Classification hit as returned by the capability: a dict with optional
`label` and `confidence`/`score` keys, or a bare label string. -/
inductive ClsHit where
  | dict (label? : Option String) (conf? score? : Option ℚ)
  | str (s : String)
deriving DecidableEq

/-- A schema, as assembled by `create_schema().entities(...).relations(...)`
(`extractor.py` lines 79–86): opaque to the pipeline, structurally the pair
of the entity-type list and the relation-type mapping handed to the builder.
(The source skips the `.relations` step for an empty mapping, which is
observationally the identity here.) -/
structure Schema where
  entityTypes : List String
  relationTypes : List (String × String)
deriving DecidableEq

/-- Process-wide configured defaults (`settings.default_entity_types` /
`settings.default_relation_types`).  The source may store entity types as a
dict of type → description; only the keys are observable to the set/merge
logic, so the embedding keeps the key list. -/
structure Config where
  defaultEntityTypes : List String
  defaultRelationTypes : List (String × String)
deriving DecidableEq

/-- The built-in defaults hard-coded in `config.get_defaults_from_yaml`,
which are the effective configuration when no YAML file overrides them. -/
def builtinConfig : Config :=
  { defaultEntityTypes :=
      ["person", "organization", "location", "technology", "product", "date"]
    defaultRelationTypes :=
      [("works_for", "person works for organization"),
       ("located_in", "entity is located in location"),
       ("created_by", "product/technology created by person/organization"),
       ("uses", "organization/person uses technology")] }

/-- The external extraction capability (`self.model`), spec §6: an opaque,
deterministic model.  `rawOf t s` is the raw result the model returns for
text `t` under schema `s`; per the capability contract a successful batch
call returns one raw result per input text, modelled as `ts.map (rawOf · s)`.
`clsOf t thr` is the classification output for text `t` at threshold `thr`
(thresholding happens inside the model via `cls_threshold`).  The Boolean
fields say which calls raise. -/
structure Capability where
  rawOf : String → Schema → RawResult
  extractFails : String → Schema → Bool
  batchFails : List String → Schema → Bool
  clsOf : String → ℚ → List ClsHit
  clsSingleFails : String → ℚ → Bool
  clsBatchFails : List String → ℚ → Bool

/-- Empty raw result substituted when the capability raises inside `extract`
(`extractor.py` line 94: `{"entities": {}, "relation_extraction": {}}`). -/
def emptyRaw : RawResult := { entities := [], relations := [] }

/-- Single-text extraction `GLiNERExtractor.extract`.  Defaults are resolved
from the configuration when arguments are `None`; only the capability call is
inside `try/except` (an exception yields the empty raw result), so
normalisation/validation errors propagate.  The body duplicates the loops of
`_parse_extraction_result` verbatim, so the embedding shares
`parseExtractionResult`. -/
def extract (cap : Capability) (cfg : Config) (text : String)
    (entityTypes? : Option (List String))
    (relationTypes? : Option (List (String × String)))
    (incConf incSpans : Bool) : Except Unit ExtractionResult :=
  let ets := entityTypes?.getD cfg.defaultEntityTypes
  let rts := relationTypes?.getD cfg.defaultRelationTypes
  let schema : Schema := ⟨ets, rts⟩
  let raw := if cap.extractFails text schema then emptyRaw else cap.rawOf text schema
  parseExtractionResult raw incConf incSpans

/-- Fuel-indexed loop of `chunkList`; the fuel (instantiated with the list
length) only forces structural termination and is never exhausted while the
list is non-empty. -/
def chunkGo (bs : Nat) : Nat → List α → List (List α)
  | _, [] => []
  | 0, _ :: _ => []
  | fuel + 1, x :: xs =>
    match bs with
    | 0 => [x :: xs]
    | b + 1 => (x :: xs).take (b + 1) :: chunkGo bs fuel (xs.drop b)

/-- Contiguous chunks of at most `bs` items (`range(0, len(texts),
batch_size)` slicing).  The source raises `ValueError` for a zero step; the
`bs = 0` case is modelled as a single chunk and excluded by the `0 < bs`
hypotheses of the theorems (the service validates `batch_size ≥ 1`). -/
def chunkList (bs : Nat) (l : List α) : List (List α) :=
  chunkGo bs l.length l

/-- Success-path normalisation loop of one chunk of `batch_extract` (lines
410–417): results are appended one by one inside the `try` block, so an
exception interrupts the loop keeping the already-appended prefix; the flag
records whether an exception occurred. -/
def parseOkLeading (incConf incSpans : Bool) :
    List RawResult → List ExtractionResult × Bool
  | [] => ([], false)
  | r :: rest =>
    match parseExtractionResult r incConf incSpans with
    | .error _ => ([], true)
    | .ok v =>
      match parseOkLeading incConf incSpans rest with
      | (more, err) => (v :: more, err)

/-- One chunk of `batch_extract` (lines 406–430).  The `try` block covers
the capability batch call and the per-item normalisation; any exception in
it makes the whole chunk fall back to sequential single-text `extract` with
the same schema, appended after whatever prefix the success path had already
accumulated.  Errors raised by the fallback itself propagate. -/
def batchChunkResult (cap : Capability) (cfg : Config)
    (ets : List String) (rts : List (String × String)) (incConf incSpans : Bool)
    (c : List String) : Except Unit (List ExtractionResult) :=
  if cap.batchFails c ⟨ets, rts⟩ then
    c.mapM (fun t => extract cap cfg t (some ets) (some rts) incConf incSpans)
  else
    match parseOkLeading incConf incSpans (c.map (fun t => cap.rawOf t ⟨ets, rts⟩)) with
    | (pre, false) => .ok pre
    | (pre, true) => do
      let fb ← c.mapM (fun t => extract cap cfg t (some ets) (some rts) incConf incSpans)
      .ok (pre ++ fb)

/-- Chunk loop of `batch_extract` (lines 403–430), accumulating the chunk
results in order. -/
def batchChunks (cap : Capability) (cfg : Config)
    (ets : List String) (rts : List (String × String)) (incConf incSpans : Bool) :
    List (List String) → Except Unit (List ExtractionResult)
  | [] => .ok []
  | c :: rest => do
    let rs ← batchChunkResult cap cfg ets rts incConf incSpans c
    let more ← batchChunks cap cfg ets rts incConf incSpans rest
    .ok (rs ++ more)

/-- Batch extraction `GLiNERExtractor.batch_extract`: resolve defaults, build
the schema once, process the input in contiguous chunks of `batch_size`. -/
def batch_extract (cap : Capability) (cfg : Config) (texts : List String)
    (entityTypes? : Option (List String))
    (relationTypes? : Option (List (String × String)))
    (bs : Nat) (incConf incSpans : Bool) : Except Unit (List ExtractionResult) :=
  let ets := entityTypes?.getD cfg.defaultEntityTypes
  let rts := relationTypes?.getD cfg.defaultRelationTypes
  batchChunks cap cfg ets rts incConf incSpans (chunkList bs texts)

/-- A parsed domain classification hit `{label, confidence}`; `label` may be
null (kept, then dropped by the truthiness filter of the grouping step). -/
structure DomainHit where
  label : Option String
  conf : ℚ
deriving DecidableEq

/-- Descending stable sort by confidence:
`sorted(detected, key=lambda x: -x.get("confidence", 0))`. -/
def sortDesc (l : List DomainHit) : List DomainHit :=
  l.mergeSort (fun a b => decide (b.conf ≤ a.conf))

/-- Parse one classification hit (`extractor.py` lines 215–225): a dict keeps
its `label` with `confidence` before `score` (default 0); a bare string
becomes a hit with the threshold as default confidence. -/
def parseClsHit (thr : ℚ) : ClsHit → DomainHit
  | .dict label? conf? score? => { label := label?, conf := (conf? <|> score?).getD 0 }
  | .str s => { label := some s, conf := thr }

/-- Keyword table hard-coded in `_classify_domains_heuristic`. -/
def CLASSIFICATION_KEYWORDS : List (String × List String) :=
  [("ecommerce", ["price", "product", "shop", "buy", "cart", "order", "brand",
      "ingredient", "shampoo", "cream", "hair", "skin", "beauty"]),
   ("code", ["function", "class", "import", "def", "return", "const", "let",
      "var", "async", "await", "export", "module", "api", "endpoint"]),
   ("documentation", ["feature", "requirement", "specification", "user story",
      "use case", "milestone", "release", "version", "component"]),
   ("legal", ["contract", "clause", "obligation", "party", "jurisdiction",
      "agreement", "terms", "conditions", "liability", "warrant"])]

/-- Character-list prefix test (needle, haystack), used for substring search. -/
def leadsWith : List Char → List Char → Bool
  | [], _ => true
  | _ :: _, [] => false
  | a :: as, b :: bs => (a == b) && leadsWith as bs

/-- Substring occurrence on character lists (haystack, needle). -/
def hasSub (hay needle : List Char) : Bool :=
  match hay with
  | [] => needle.isEmpty
  | _ :: t => leadsWith needle hay || hasSub t needle

/-- Python's `kw in text` substring containment. -/
def strContains (hay needle : String) : Bool :=
  hasSub hay.toList needle.toList

/-- Loop body of the heuristic classifier for one `(domain, keywords)` pair:
`hits = number of keywords occurring in the lower-cased text`,
`score = hits / len(keywords)` (0 for an empty table); the domain is
reported iff `score > threshold`, with `confidence = min(score * 2, 1.0)`. -/
def heuristicHit (text : String) (thr : ℚ) (p : String × List String) :
    Option DomainHit :=
  let hits := (p.2.filter (fun kw => strContains text.toLower kw)).length
  let score : ℚ := if p.2 ≠ [] then (hits : ℚ) / (p.2.length : ℚ) else 0
  if thr < score then some { label := some p.1, conf := min (score * 2) 1 }
  else none

/-- Heuristic fallback `_classify_domains_heuristic`: score every domain of
the keyword table against the lower-cased text, keep those above the
threshold, and sort descending by confidence. -/
def classify_domains_heuristic (text : String) (thr : ℚ) : List DomainHit :=
  sortDesc (CLASSIFICATION_KEYWORDS.filterMap (heuristicHit text thr))

/-- Single-text classification `classify_domains`: the capability-backed path
parses and sorts the hits; any exception falls back to the keyword
heuristic. -/
def classify_domains (cap : Capability) (text : String) (thr : ℚ) : List DomainHit :=
  if cap.clsSingleFails text thr then classify_domains_heuristic text thr
  else sortDesc ((cap.clsOf text thr).map (parseClsHit thr))

/-- Batch classification `classify_domains_batch`: empty input short-circuits
to `[]`; the capability is called once per chunk of `batch_size` texts inside
one `try` block, so an exception on any chunk discards everything and falls
back to sequential `classify_domains` for every text; otherwise the
concatenated chunk results are parsed and sorted per text. -/
def classify_domains_batch (cap : Capability) (texts : List String)
    (thr : ℚ) (bs : Nat) : List (List DomainHit) :=
  if texts.isEmpty then []
  else if (chunkList bs texts).any (fun c => cap.clsBatchFails c thr) then
    texts.map (fun t => classify_domains cap t thr)
  else
    ((chunkList bs texts).flatMap (fun c => c.map (fun t => cap.clsOf t thr))).map
      (fun hits => sortDesc (hits.map (parseClsHit thr)))

/-- A domain preset as built by `config.build_domain_presets`: the `enabled`
flag is stored but never read by the merge; `entity_types` may be a YAML dict
of type → description, of which only the keys are observable to the set
union, so the embedding keeps the key list. -/
structure Preset where
  enabled : Bool
  entity_types : List String
  relation_types : List (String × String)
deriving DecidableEq

/-- Python `set.update`: add the missing elements.  Python set iteration
order is unspecified; the embedding determinises it as insertion order. -/
def setAdd (s : List String) (xs : List String) : List String :=
  xs.foldl (fun acc x => if x ∈ acc then acc else acc ++ [x]) s

/-- One key of a Python `dict.update`: an existing key keeps its position and
gets the new value; a new key is appended. -/
def dictIns (m : List (String × String)) (kv : String × String) :
    List (String × String) :=
  if m.any (fun p => p.1 = kv.1) then
    m.map (fun p => if p.1 = kv.1 then (p.1, kv.2) else p)
  else m ++ [kv]

/-- Python `dict.update` over all pairs of the argument, in order. -/
def dictUpd (m : List (String × String)) (kvs : List (String × String)) :
    List (String × String) :=
  kvs.foldl dictIns m

/-- Loop body of the preset merge: a known domain contributes its entity
types to the set union and its relation types to the mapping union; an
unknown domain name is silently skipped. -/
def mergeStep (presets : List (String × Preset))
    (acc : List String × List (String × String)) (d : String) :
    List String × List (String × String) :=
  match presets.lookup d with
  | some p => (setAdd acc.1 p.entity_types, dictUpd acc.2 p.relation_types)
  | none => acc

/-- Preset merge `GLiNERExtractor.get_preset_schema`: union the entity-type
sets and relation-type mappings of the known domains (unknown names
skipped); if the entity-type union is empty, both components are replaced by
the configured defaults (`list(set(defaults))` for the entity side). -/
def get_preset_schema (presets : List (String × Preset)) (cfg : Config)
    (domains : List String) : List String × List (String × String) :=
  let acc := domains.foldl (mergeStep presets) ([], [])
  if acc.1 = [] then (setAdd [] cfg.defaultEntityTypes, cfg.defaultRelationTypes)
  else acc

/-- Truthiness filter of the grouping step:
`[d["label"] for d in domains if d.get("label")]` (null and empty labels
dropped). -/
def labelsOf (domains : List DomainHit) : List String :=
  domains.filterMap (fun d =>
    match d.label with
    | some l => if l = "" then none else some l
    | none => none)

/-- Grouping key: `tuple(sorted(domain_labels)) if domain_labels else ("default",)`. -/
def keyOfLabels (labels : List String) : List String :=
  if labels = [] then ["default"]
  else labels.mergeSort (fun a b => decide (a ≤ b))

/-- Append a value under a key in an insertion-ordered multimap — the
behaviour of `defaultdict(list)` with `batches[domain_key].append(...)`. -/
def addToGroups (gs : List (List String × List (Nat × String)))
    (key : List String) (v : Nat × String) :
    List (List String × List (Nat × String)) :=
  match gs with
  | [] => [(key, [v])]
  | (k, vs) :: rest =>
    if k = key then (k, vs ++ [v]) :: rest else (k, vs) :: addToGroups rest key v

/-- Step 2 of the auto-domain pipeline: group the enumerated (index, text,
truncated classification) triples by grouping key. -/
def buildGroups (l : List (Nat × String × List DomainHit)) :
    List (List String × List (Nat × String)) :=
  l.foldl (fun gs x => addToGroups gs (keyOfLabels (labelsOf x.2.2)) (x.1, x.2.1)) []

/-- Schema resolution of step 3: the `("default",)` group uses the configured
defaults directly; any other key goes through the preset merge. -/
def schemaForKey (presets : List (String × Preset)) (cfg : Config)
    (key : List String) : List String × List (String × String) :=
  if key = ["default"] then (cfg.defaultEntityTypes, cfg.defaultRelationTypes)
  else get_preset_schema presets cfg key

/-- Read of the scatter dictionary `results[orig_idx]`: last write wins. -/
def writeLookup (ws : List (Nat × ExtractionResult)) (i : Nat) :
    Option ExtractionResult :=
  ws.foldl (fun acc jr => if jr.1 = i then some jr.2 else acc) none

/-- Step 3 loop of the auto-domain pipeline: for each group resolve its
schema, batch-extract the group's texts, and record each result under its
original index (`zip` truncates exactly as in the source). -/
def processGroups (cap : Capability) (cfg : Config)
    (presets : List (String × Preset)) (bs : Nat) (incConf incSpans : Bool) :
    List (List String × List (Nat × String)) →
    Except Unit (List (Nat × ExtractionResult))
  | [] => .ok []
  | (key, its) :: rest => do
    let er := schemaForKey presets cfg key
    let brs ← batch_extract cap cfg (its.map (·.2)) (some er.1) (some er.2)
      bs incConf incSpans
    let more ← processGroups cap cfg presets bs incConf incSpans rest
    .ok ((its.zip brs).map (fun p => (p.1.1, p.2)) ++ more)

/-- Step 1 of the auto-domain pipeline: batch classification (at twice the
extraction batch size) followed by truncation to the first `max_domains`
entries (`domains[:max_domains]`). -/
def autoClassifications (cap : Capability) (texts : List String) (bs : Nat)
    (thr : ℚ) (maxd : Nat) : List (List DomainHit) :=
  (classify_domains_batch cap texts thr (bs * 2)).map (fun ds => ds.take maxd)

/-- The enumerated triples `(idx, text, domains)` fed to the grouping step
(`enumerate(zip(texts, classifications))`). -/
def autoEnum (cap : Capability) (texts : List String) (bs : Nat)
    (thr : ℚ) (maxd : Nat) : List (Nat × String × List DomainHit) :=
  ((List.range texts.length).zip
      (texts.zip (autoClassifications cap texts bs thr maxd))).map
    (fun p => (p.1, p.2.1, p.2.2))

/-- The grouping dictionary of the auto-domain pipeline. -/
def autoGroups (cap : Capability) (texts : List String) (bs : Nat)
    (thr : ℚ) (maxd : Nat) : List (List String × List (Nat × String)) :=
  buildGroups (autoEnum cap texts bs thr maxd)

/-- The auto-domain pipeline `batch_extract_with_auto_domains`: batch
classification at twice the batch size, truncation to `max_domains`,
grouping by sorted domain key, per-group batch extraction, scatter by
original index, and gather at indices `0..n-1` (a missing index would raise
`KeyError`, modelled as an error). -/
def batch_extract_with_auto_domains (cap : Capability) (cfg : Config)
    (presets : List (String × Preset)) (texts : List String) (bs : Nat)
    (thr : ℚ) (maxd : Nat) (incConf incSpans : Bool) :
    Except Unit (List ExtractionResult) := do
  let ws ← processGroups cap cfg presets bs incConf incSpans
    (autoGroups cap texts bs thr maxd)
  (List.range texts.length).mapM (fun i =>
    match writeLookup ws i with
    | some r => .ok r
    | none => .error ())

/-- Per-text value of one `classify_domains_batch` call: because every
classification failure mode degrades internally (batch → sequential →
heuristic), the call returns, for each text, either its sequential
classification (when some chunk's capability call raised) or its parsed and
sorted batch classification. -/
def clsPerText (cap : Capability) (texts : List String) (thr : ℚ) (bs : Nat)
    (t : String) : List DomainHit :=
  if (chunkList bs texts).any (fun c => cap.clsBatchFails c thr) then
    classify_domains cap t thr
  else sortDesc ((cap.clsOf t thr).map (parseClsHit thr))

/-- The grouping key the auto-domain pipeline computes for a text `t` of the
input `texts`: the sorted tuple of its truncated classification labels, or
`("default",)` when none survive the truthiness filter. -/
def routedKey (cap : Capability) (texts : List String) (bs : Nat)
    (thr : ℚ) (maxd : Nat) (t : String) : List String :=
  keyOfLabels (labelsOf ((clsPerText cap texts thr (bs * 2) t).take maxd))

/-- The value of a successful normalisation of one raw result (`default`
when it fails, a case excluded wherever the definition is used). -/
def parseValueRaw (r : RawResult) (incConf incSpans : Bool) : ExtractionResult :=
  match parseExtractionResult r incConf incSpans with
  | .ok v => v
  | .error _ => default

/-- The normalised extraction result the capability yields for one text
under one schema, when normalisation succeeds. -/
def parseValue (cap : Capability) (t : String) (s : Schema)
    (incConf incSpans : Bool) : ExtractionResult :=
  parseValueRaw (cap.rawOf t s) incConf incSpans

/-- The schema the auto-domain pipeline resolves for one grouping key. -/
def schemaOfKey (presets : List (String × Preset)) (cfg : Config)
    (key : List String) : Schema :=
  ⟨(schemaForKey presets cfg key).1, (schemaForKey presets cfg key).2⟩

/-! Lemmas about the Python-set model `setAdd`. -/

theorem setAdd_cons (s : List String) (x : String) (xs : List String) :
    setAdd s (x :: xs) = setAdd (if x ∈ s then s else s ++ [x]) xs := by
  simp only [setAdd, List.foldl_cons]

theorem mem_setAdd_of_mem (xs : List String) (s : List String) (x : String)
    (h : x ∈ s) : x ∈ setAdd s xs := by
  induction xs generalizing s with
  | nil => simpa [setAdd] using h
  | cons y ys ih =>
    rw [setAdd_cons]
    apply ih
    by_cases hy : y ∈ s <;> simp [hy, h]

theorem mem_setAdd_right (xs s : List String) (x : String) (h : x ∈ xs) :
    x ∈ setAdd s xs := by
  induction xs generalizing s with
  | nil => cases h
  | cons y ys ih =>
    rw [setAdd_cons]
    rcases List.mem_cons.mp h with rfl | hx
    · apply mem_setAdd_of_mem
      by_cases hy : x ∈ s <;> simp [hy]
    · exact ih _ hx

theorem setAdd_of_sub (xs s : List String) (h : ∀ x ∈ xs, x ∈ s) :
    setAdd s xs = s := by
  induction xs with
  | nil => rfl
  | cons y ys ih =>
    rw [setAdd_cons, if_pos (h y (by simp))]
    exact ih fun x hx => h x (by simp [hx])

theorem setAdd_idem (s xs : List String) :
    setAdd (setAdd s xs) xs = setAdd s xs :=
  setAdd_of_sub _ _ (fun x hx => mem_setAdd_right _ _ _ hx)

theorem setAdd_ne_nil (s xs : List String) (h : s ≠ []) : setAdd s xs ≠ [] := by
  induction xs generalizing s with
  | nil => simpa [setAdd] using h
  | cons y ys ih =>
    rw [setAdd_cons]
    apply ih
    by_cases hy : y ∈ s <;> simp [hy, h]

theorem setAdd_nil_ne_nil (xs : List String) (h : xs ≠ []) : setAdd [] xs ≠ [] := by
  cases xs with
  | nil => exact absurd rfl h
  | cons y ys =>
    rw [setAdd_cons]
    exact setAdd_ne_nil _ _ (by simp)

theorem foldl_mergeStep_unknown (presets : List (String × Preset))
    (domains : List String) (acc : List String × List (String × String))
    (h : ∀ d ∈ domains, presets.lookup d = none) :
    domains.foldl (mergeStep presets) acc = acc := by
  induction domains generalizing acc with
  | nil => rfl
  | cons d ds ih =>
    rw [List.foldl_cons]
    have hstep : mergeStep presets acc d = acc := by
      unfold mergeStep
      rw [h d (by simp)]
    rw [hstep]
    exact ih acc fun x hx => h x (by simp [hx])

/-- C5: merging an empty domain list, or a list of only unknown domain
names, returns the configured process-wide defaults (the entity side being
`list(set(defaults))`), and the returned entity-type list is non-empty
whenever the configured default entity types are; unknown domain names are
silently skipped, not an error. -/
theorem c5_default_fallback (presets : List (String × Preset)) (cfg : Config)
    (domains : List String)
    (hunk : ∀ d ∈ domains, presets.lookup d = none)
    (hne : cfg.defaultEntityTypes ≠ []) :
    get_preset_schema presets cfg domains =
      (setAdd [] cfg.defaultEntityTypes, cfg.defaultRelationTypes) ∧
    (get_preset_schema presets cfg domains).1 ≠ [] := by
  have hres : get_preset_schema presets cfg domains =
      (setAdd [] cfg.defaultEntityTypes, cfg.defaultRelationTypes) := by
    unfold get_preset_schema
    rw [foldl_mergeStep_unknown presets domains ([], []) hunk]
    simp
  exact ⟨hres, by rw [hres]; exact setAdd_nil_ne_nil _ hne⟩

/-- Concrete instance for C5: a registry with one `legal` preset, queried
with the unknown name `unknown-domain`, yields the built-in defaults. -/
theorem c5_default_fallback_witness :
    get_preset_schema
        [("legal", { enabled := true, entity_types := ["party"], relation_types := [] })]
        builtinConfig ["unknown-domain"] =
      (setAdd [] builtinConfig.defaultEntityTypes, builtinConfig.defaultRelationTypes) ∧
    (get_preset_schema
        [("legal", { enabled := true, entity_types := ["party"], relation_types := [] })]
        builtinConfig ["unknown-domain"]).1 ≠ [] :=
  c5_default_fallback _ builtinConfig ["unknown-domain"] (by decide) (by decide)

/-- C10: when the matched domains' entity-type union is empty, the merge
returns the configured defaults for both components, even when the matched
relation-type union is non-empty — the merged relation types are
discarded. -/
theorem c10_empty_entity_union_uses_default_relations
    (presets : List (String × Preset)) (cfg : Config) (domains : List String)
    (hent : (domains.foldl (mergeStep presets) ([], [])).1 = [])
    (hrel : (domains.foldl (mergeStep presets) ([], [])).2 ≠ []) :
    get_preset_schema presets cfg domains =
      (setAdd [] cfg.defaultEntityTypes, cfg.defaultRelationTypes) := by
  unfold get_preset_schema
  rw [if_pos hent]

/-- Concrete instance for C10: a preset with no entity types but one
relation type; its merged relation mapping is dropped in favour of the
defaults. -/
theorem c10_empty_entity_union_witness :
    get_preset_schema
        [("d", { enabled := true, entity_types := [],
                 relation_types := [("refers_to", "clause refers to clause")] })]
        builtinConfig ["d"] =
      (setAdd [] builtinConfig.defaultEntityTypes, builtinConfig.defaultRelationTypes) :=
  c10_empty_entity_union_uses_default_relations _ builtinConfig ["d"]
    (by decide) (by decide)

/-! Lemmas about the Python-dict model `dictIns` / `dictUpd`.  `dLookup` is
the proof-side value-of-key observer for association lists. -/

def dLookup (k : String) : List (String × String) → Option String
  | [] => none
  | p :: rest => if p.1 = k then some p.2 else dLookup k rest

theorem dLookup_none_of_not_any (m : List (String × String)) (k : String)
    (h : m.any (fun p => p.1 = k) = false) : dLookup k m = none := by
  induction m with
  | nil => rfl
  | cons p rest ih =>
    simp only [List.any_cons, Bool.or_eq_false_iff, decide_eq_false_iff_not] at h
    simp [dLookup, h.1, ih h.2]

theorem any_of_dLookup_some (m : List (String × String)) (k v : String)
    (h : dLookup k m = some v) : m.any (fun p => p.1 = k) = true := by
  induction m with
  | nil => simp [dLookup] at h
  | cons p rest ih =>
    by_cases hp : p.1 = k
    · simp [hp]
    · simp only [dLookup, if_neg hp] at h
      simp [ih h]

theorem dLookup_append_left_none (m l : List (String × String)) (k : String)
    (h : dLookup k m = none) : dLookup k (m ++ l) = dLookup k l := by
  induction m with
  | nil => rfl
  | cons p rest ih =>
    by_cases hp : p.1 = k
    · simp [dLookup, hp] at h
    · simp only [dLookup, if_neg hp] at h
      simp only [List.cons_append, dLookup, if_neg hp]
      exact ih h

theorem dLookup_append (m l : List (String × String)) (k : String) :
    dLookup k (m ++ l) =
      (match dLookup k m with | some v => some v | none => dLookup k l) := by
  induction m with
  | nil => simp [dLookup]
  | cons p rest ih => by_cases hp : p.1 = k <;> simp [dLookup, hp, ih]

theorem dLookup_dictIns_self (m : List (String × String)) (k v : String) :
    dLookup k (dictIns m (k, v)) = some v := by
  unfold dictIns
  split
  case isTrue hany =>
    induction m with
    | nil => simp at hany
    | cons p rest ih =>
      by_cases hp : p.1 = k
      · simp [dLookup, hp]
      · simp only [List.any_cons, decide_eq_true_eq, Bool.or_eq_true] at hany
        rcases hany with h1 | h2
        · exact absurd h1 hp
        · simpa [dLookup, hp] using ih h2
  case isFalse hany =>
    rw [dLookup_append]
    rw [dLookup_none_of_not_any _ _ (Bool.eq_false_iff.mpr hany)]
    simp [dLookup]

theorem dLookup_map_replace_ne (m : List (String × String)) (kv : String × String)
    (k : String) (h : k ≠ kv.1) :
    dLookup k (m.map (fun p => if p.1 = kv.1 then (p.1, kv.2) else p)) =
      dLookup k m := by
  induction m with
  | nil => rfl
  | cons p rest ih =>
    by_cases hp : p.1 = kv.1
    · have hpk : ¬ p.1 = k := fun e => h (e.symm.trans hp)
      have hk2 : ¬ kv.1 = k := fun e => h e.symm
      simp [dLookup, hp, hpk, hk2, ih]
    · simp [dLookup, hp, ih]

theorem dLookup_dictIns_ne (m : List (String × String)) (kv : String × String)
    (k : String) (h : k ≠ kv.1) : dLookup k (dictIns m kv) = dLookup k m := by
  unfold dictIns
  split
  · exact dLookup_map_replace_ne m kv k h
  · rw [dLookup_append]
    have hkv : dLookup k [kv] = none := by
      have hk2 : ¬ kv.1 = k := fun e => h e.symm
      simp [dLookup, hk2]
    rw [hkv]
    cases dLookup k m <;> rfl

theorem map_replace_eq_of_no_key (rest : List (String × String)) (k v : String)
    (h : ∀ q ∈ rest, q.1 ≠ k) :
    rest.map (fun p => if p.1 = k then (p.1, v) else p) = rest := by
  induction rest with
  | nil => rfl
  | cons q more ih =>
    rw [List.map_cons, if_neg (h q (by simp)), ih fun x hx => h x (by simp [hx])]

theorem dictIns_eq_self (m : List (String × String)) (k v : String)
    (hnd : (m.map Prod.fst).Nodup) (h : dLookup k m = some v) :
    dictIns m (k, v) = m := by
  unfold dictIns
  rw [if_pos (any_of_dLookup_some _ _ _ h)]
  induction m with
  | nil => simp [dLookup] at h
  | cons p rest ih =>
    simp only [List.map_cons, List.nodup_cons] at hnd
    by_cases hp : p.1 = k
    · simp only [dLookup, if_pos hp] at h
      rw [List.map_cons, if_pos hp]
      have hv : v = p.2 := (Option.some_injective _ h).symm
      subst hv
      have hnok : ∀ q ∈ rest, q.1 ≠ k := by
        intro q hq e
        exact hnd.1 (hp ▸ e ▸ List.mem_map_of_mem Prod.fst hq)
      rw [map_replace_eq_of_no_key _ _ _ hnok]
    · simp only [dLookup, if_neg hp] at h
      rw [List.map_cons, if_neg hp, ih hnd.2 h]

theorem map_fst_replace (m : List (String × String)) (kv : String × String) :
    (m.map (fun p => if p.1 = kv.1 then (p.1, kv.2) else p)).map Prod.fst =
      m.map Prod.fst := by
  induction m with
  | nil => rfl
  | cons p rest ih =>
    simp only [List.map_cons, ih]
    by_cases hp : p.1 = kv.1 <;> simp [hp]

theorem dictIns_map_fst_nodup (m : List (String × String)) (kv : String × String)
    (h : (m.map Prod.fst).Nodup) : ((dictIns m kv).map Prod.fst).Nodup := by
  unfold dictIns
  split
  case isTrue hany =>
    rw [map_fst_replace]
    exact h
  case isFalse hany =>
    have hnotin : kv.1 ∉ m.map Prod.fst := by
      intro hmem
      rcases List.mem_map.mp hmem with ⟨p, hp, he⟩
      have : m.any (fun p => p.1 = kv.1) = true :=
        List.any_eq_true.mpr ⟨p, hp, by simp [he]⟩
      exact hany this
    simp [List.nodup_append, h, hnotin]

theorem dLookup_dictUpd_not_key (kvs : List (String × String))
    (m : List (String × String)) (k : String) (h : k ∉ kvs.map Prod.fst) :
    dLookup k (dictUpd m kvs) = dLookup k m := by
  induction kvs generalizing m with
  | nil => rfl
  | cons kv rest ih =>
    simp only [List.map_cons, List.mem_cons, not_or] at h
    show dLookup k (dictUpd (dictIns m kv) rest) = dLookup k m
    rw [ih (dictIns m kv) h.2, dLookup_dictIns_ne _ _ _ h.1]

theorem dLookup_dictUpd_self (kvs : List (String × String)) :
    ∀ (m : List (String × String)), (kvs.map Prod.fst).Nodup →
    ∀ k v, (k, v) ∈ kvs → dLookup k (dictUpd m kvs) = some v := by
  induction kvs with
  | nil => intro m _ k v h; cases h
  | cons kv rest ih =>
    intro m hnd k v h
    simp only [List.map_cons, List.nodup_cons] at hnd
    rcases List.mem_cons.mp h with he | hmem
    · subst he
      show dLookup k (dictUpd (dictIns m (k, v)) rest) = some v
      rw [dLookup_dictUpd_not_key _ _ _ hnd.1]
      exact dLookup_dictIns_self _ _ _
    · exact ih (dictIns m kv) hnd.2 k v hmem

theorem dictUpd_map_fst_nodup (kvs : List (String × String)) :
    ∀ (m : List (String × String)), (m.map Prod.fst).Nodup →
    ((dictUpd m kvs).map Prod.fst).Nodup := by
  induction kvs with
  | nil => intro m h; exact h
  | cons kv rest ih =>
    intro m h
    exact ih (dictIns m kv) (dictIns_map_fst_nodup m kv h)

theorem dictUpd_eq_self (kvs : List (String × String)) :
    ∀ (m : List (String × String)), (m.map Prod.fst).Nodup →
    (∀ kv ∈ kvs, dLookup kv.1 m = some kv.2) → dictUpd m kvs = m := by
  induction kvs with
  | nil => intro m _ _; rfl
  | cons kv rest ih =>
    intro m hm hall
    obtain ⟨k, v⟩ := kv
    have hself : dictIns m (k, v) = m :=
      dictIns_eq_self m k v hm (hall (k, v) (by simp))
    show dictUpd (dictIns m (k, v)) rest = m
    rw [hself]
    exact ih m hm fun kv hkv => hall kv (by simp [hkv])

theorem dictUpd_idem (m kvs : List (String × String))
    (hm : (m.map Prod.fst).Nodup) (hkvs : (kvs.map Prod.fst).Nodup) :
    dictUpd (dictUpd m kvs) kvs = dictUpd m kvs :=
  dictUpd_eq_self _ _ (dictUpd_map_fst_nodup _ _ hm)
    (fun kv hkv => dLookup_dictUpd_self kvs m hkvs kv.1 kv.2 (by simpa using hkv))

/-- C6: merging the same domain twice is the same as merging it once: the
entity-type set union is idempotent and re-applying the same relation-type
dict update (whose keys come from a Python dict and are therefore distinct)
changes nothing. -/
theorem c6_merge_idempotent (presets : List (String × Preset)) (cfg : Config)
    (d : String)
    (hnd : ∀ p, presets.lookup d = some p → (p.relation_types.map Prod.fst).Nodup) :
    get_preset_schema presets cfg [d, d] = get_preset_schema presets cfg [d] := by
  unfold get_preset_schema
  simp only [List.foldl_cons, List.foldl_nil]
  have key : mergeStep presets (mergeStep presets ([], []) d) d
      = mergeStep presets ([], []) d := by
    unfold mergeStep
    cases hl : presets.lookup d with
    | none => rfl
    | some p =>
      have hrel := hnd p hl
      simp only
      rw [setAdd_idem, dictUpd_idem _ _ (by simp) hrel]
  rw [key]

/-- Demo preset used to instantiate the registry-dependent theorems. -/
def demoLegalPreset : Preset :=
  { enabled := true
    entity_types := ["party", "clause"]
    relation_types :=
      [("governs", "law governs contract"),
       ("party_to", "person is party to contract")] }

/-- Concrete instance for C6 on the demo registry. -/
theorem c6_merge_idempotent_witness :
    get_preset_schema [("legal", demoLegalPreset)] builtinConfig ["legal", "legal"] =
      get_preset_schema [("legal", demoLegalPreset)] builtinConfig ["legal"] :=
  c6_merge_idempotent _ builtinConfig "legal" (fun p hp => by
    have h2 : ([("legal", demoLegalPreset)]).lookup "legal" = some demoLegalPreset := by
      decide
    have h3 := Option.some.inj (h2.symm.trans hp)
    rw [← h3]
    decide)

/-! Confidence-bound invariants of the normaliser. -/

theorem exceptOkBind {ε α β : Type} (a : α) (f : α → Except ε β) :
    (Except.ok a >>= f : Except ε β) = f a := rfl

theorem exceptPure {ε α : Type} (a : α) :
    (pure a : Except ε α) = Except.ok a := rfl

theorem checkConfidence_ok_bounds (v : Option ℚ) (c : ℚ)
    (h : checkConfidence v = .ok (some c)) : 0 ≤ c ∧ c ≤ 1 := by
  cases v with
  | none => simp [checkConfidence] at h
  | some x =>
    simp only [checkConfidence] at h
    split at h
    next hb =>
      injection h with h2
      injection h2 with h3
      exact h3 ▸ hb
    next => exact Except.noConfusion h

theorem mapM_ok_forall {α β : Type} (f : α → Except Unit β) (l : List α)
    (ys : List β) (h : l.mapM f = .ok ys) :
    ∀ y ∈ ys, ∃ x ∈ l, f x = .ok y := by
  induction l generalizing ys with
  | nil =>
    simp only [List.mapM_nil, exceptPure] at h
    cases h
    intro y hy
    cases hy
  | cons x xs ih =>
    rw [List.mapM_cons] at h
    cases hx : f x with
    | error e => rw [hx] at h; exact Except.noConfusion h
    | ok b =>
      rw [hx] at h
      cases hrest : xs.mapM f with
      | error e =>
        rw [hrest] at h
        simp only [exceptOkBind] at h
        exact Except.noConfusion h
      | ok bs =>
        rw [hrest] at h
        simp only [exceptOkBind, exceptPure] at h
        cases h
        intro y hy
        rcases List.mem_cons.mp hy with rfl | hmem
        · exact ⟨x, by simp, hx⟩
        · rcases ih bs hrest y hmem with ⟨x', hx', hfx'⟩
          exact ⟨x', by simp [hx'], hfx'⟩

theorem parseEntityItem_bounds (t : String) (ic is : Bool) (hit : EntHit)
    (e : ExtractedEntity) (h : parseEntityItem t ic is hit = .ok e)
    (c : ℚ) (hc : e.confidence = some c) : 0 ≤ c ∧ c ≤ 1 := by
  cases hit with
  | dict text? name? score? conf? start? stop? srepr =>
    simp only [parseEntityItem] at h
    cases hchk : checkConfidence (if ic then score? <|> conf? else none) with
    | error er => rw [hchk] at h; exact Except.noConfusion h
    | ok cv =>
      rw [hchk] at h
      simp only [exceptOkBind] at h
      injection h with h2
      rw [← h2] at hc
      simp only at hc
      rw [hc] at hchk
      exact checkConfidence_ok_bounds _ _ hchk
  | str s =>
    simp only [parseEntityItem] at h
    injection h with h2
    rw [← h2] at hc
    simp at hc

theorem parseEntities_bounds (ic is : Bool)
    (l : List (String × Option (List EntHit))) :
    ∀ es, parseEntities ic is l = .ok es →
    ∀ e ∈ es, ∀ c, e.confidence = some c → 0 ≤ c ∧ c ≤ 1 := by
  induction l with
  | nil =>
    intro es h
    injection h with h2
    intro e he
    rw [← h2] at he
    cases he
  | cons p rest ih =>
    obtain ⟨t, v⟩ := p
    intro es h
    cases v with
    | none => exact ih es h
    | some items =>
      simp only [parseEntities] at h
      cases hm : items.mapM (parseEntityItem t ic is) with
      | error er => rw [hm] at h; exact Except.noConfusion h
      | ok hs =>
        rw [hm] at h
        simp only [exceptOkBind] at h
        cases hrest : parseEntities ic is rest with
        | error er => rw [hrest] at h; exact Except.noConfusion h
        | ok more =>
          rw [hrest] at h
          simp only [exceptOkBind] at h
          injection h with h2
          intro e he c hc
          rw [← h2] at he
          rcases List.mem_append.mp he with hin | hin
          · rcases mapM_ok_forall _ _ _ hm e hin with ⟨x, _, hfx⟩
            exact parseEntityItem_bounds _ _ _ _ _ hfx _ hc
          · exact ih more hrest e hin c hc

theorem parseRelItem_bounds (rt : String) (ic : Bool) (hit : RelHit)
    (r : ExtractedRelation) (h : parseRelItem rt ic hit = .ok (some r))
    (c : ℚ) (hc : r.confidence = some c) : 0 ≤ c ∧ c ≤ 1 := by
  cases hit with
  | tup subj obj rest =>
    simp only [parseRelItem] at h
    cases hchk : checkConfidence (if ic then
        match rest.head? with
        | some (some c) => some c
        | _ =>
          match endpConf subj, endpConf obj with
          | some a, some b => some ((a + b) / 2)
          | _, _ => none
      else none) with
    | error er => rw [hchk] at h; exact Except.noConfusion h
    | ok cv =>
      rw [hchk] at h
      simp only [exceptOkBind] at h
      injection h with h2
      injection h2 with h3
      rw [← h3] at hc
      simp only at hc
      rw [hc] at hchk
      exact checkConfidence_ok_bounds _ _ hchk
  | dict subject? head? object? tail? score? conf? =>
    simp only [parseRelItem] at h
    cases hchk : checkConfidence (if ic then score? <|> conf? else none) with
    | error er => rw [hchk] at h; exact Except.noConfusion h
    | ok cv =>
      rw [hchk] at h
      simp only [exceptOkBind] at h
      injection h with h2
      injection h2 with h3
      rw [← h3] at hc
      simp only at hc
      rw [hc] at hchk
      exact checkConfidence_ok_bounds _ _ hchk
  | other =>
    simp only [parseRelItem] at h
    injection h with h2
    exact Option.noConfusion h2

theorem parseRelItems_bounds (rt : String) (ic : Bool) (items : List RelHit) :
    ∀ rs, parseRelItems rt ic items = .ok rs →
    ∀ r ∈ rs, ∀ c, r.confidence = some c → 0 ≤ c ∧ c ≤ 1 := by
  induction items with
  | nil =>
    intro rs h
    injection h with h2
    intro r hr
    rw [← h2] at hr
    cases hr
  | cons hit rest ih =>
    intro rs h
    simp only [parseRelItems] at h
    cases hhit : parseRelItem rt ic hit with
    | error er => rw [hhit] at h; exact Except.noConfusion h
    | ok r? =>
      rw [hhit] at h
      simp only [exceptOkBind] at h
      cases hrest : parseRelItems rt ic rest with
      | error er => rw [hrest] at h; exact Except.noConfusion h
      | ok more =>
        rw [hrest] at h
        simp only [exceptOkBind] at h
        injection h with h2
        intro r hr c hc
        rw [← h2] at hr
        cases r? with
        | none => exact ih more hrest r hr c hc
        | some r0 =>
          rcases List.mem_cons.mp hr with rfl | hmem
          · exact parseRelItem_bounds _ _ _ _ hhit _ hc
          · exact ih more hrest r hmem c hc

theorem parseRelations_bounds (ic : Bool)
    (l : List (String × Option (List RelHit))) :
    ∀ rs, parseRelations ic l = .ok rs →
    ∀ r ∈ rs, ∀ c, r.confidence = some c → 0 ≤ c ∧ c ≤ 1 := by
  induction l with
  | nil =>
    intro rs h
    injection h with h2
    intro r hr
    rw [← h2] at hr
    cases hr
  | cons p rest ih =>
    obtain ⟨t, v⟩ := p
    intro rs h
    cases v with
    | none => exact ih rs h
    | some items =>
      simp only [parseRelations] at h
      cases hm : parseRelItems t ic items with
      | error er => rw [hm] at h; exact Except.noConfusion h
      | ok here =>
        rw [hm] at h
        simp only [exceptOkBind] at h
        cases hrest : parseRelations ic rest with
        | error er => rw [hrest] at h; exact Except.noConfusion h
        | ok more =>
          rw [hrest] at h
          simp only [exceptOkBind] at h
          injection h with h2
          intro r hr c hc
          rw [← h2] at hr
          rcases List.mem_append.mp hr with hin | hin
          · exact parseRelItems_bounds _ _ _ _ hm r hin c hc
          · exact ih more hrest r hin c hc

/-- C3 (amended): when normalisation returns a result, every entity and
relation confidence present in it lies in [0,1] — enforced by the pydantic
bounds validation, not by clamping. -/
theorem c3_confidence_bounds (raw : RawResult) (ic is : Bool)
    (res : ExtractionResult) (h : parseExtractionResult raw ic is = .ok res) :
    (∀ e ∈ res.entities, ∀ c, e.confidence = some c → 0 ≤ c ∧ c ≤ 1) ∧
    (∀ r ∈ res.relations, ∀ c, r.confidence = some c → 0 ≤ c ∧ c ≤ 1) := by
  unfold parseExtractionResult at h
  cases hes : parseEntities ic is raw.entities with
  | error er => rw [hes] at h; exact Except.noConfusion h
  | ok es =>
    rw [hes] at h
    simp only [exceptOkBind] at h
    cases hrs : parseRelations ic raw.relations with
    | error er => rw [hrs] at h; exact Except.noConfusion h
    | ok rs =>
      rw [hrs] at h
      simp only [exceptOkBind] at h
      injection h with h2
      rw [← h2]
      exact ⟨parseEntities_bounds _ _ _ _ hes, parseRelations_bounds _ _ _ hrs⟩

/-- Counterexample to C3 as stated: a raw entity hit carrying the
out-of-range score 2 makes the whole normalisation call fail with a
validation error — the value is neither clamped into [0,1] nor dropped. -/
theorem c3_out_of_range_fails :
    parseExtractionResult
      { entities := [("person",
          some [.dict (some "Jane Smith") none (some 2) none none none "x"])],
        relations := [] } true true = .error () := by decide

/-- Concrete instance for C3 (amended): an in-range raw result parses and
its confidences satisfy the bounds. -/
theorem c3_confidence_bounds_witness :
    (∀ e ∈ ({ entities := [{ name := "Jane Smith", type := "person",
                             confidence := some 1, span := none }],
              relations := [] } : ExtractionResult).entities,
      ∀ c, e.confidence = some c → 0 ≤ c ∧ c ≤ 1) ∧
    (∀ r ∈ ({ entities := [{ name := "Jane Smith", type := "person",
                             confidence := some 1, span := none }],
              relations := [] } : ExtractionResult).relations,
      ∀ c, r.confidence = some c → 0 ≤ c ∧ c ≤ 1) :=
  c3_confidence_bounds
    { entities := [("person",
        some [.dict (some "Jane Smith") none (some 1) none none none "x"])],
      relations := [] } true true
    { entities := [{ name := "Jane Smith", type := "person",
                     confidence := some 1, span := none }],
      relations := [] }
    (by decide)

/-! Chunking and fallback lemmas for `batch_extract`. -/

theorem chunkGo_flatten (bs : Nat) (fuel : Nat) : ∀ (l : List α),
    l.length ≤ fuel → (chunkGo bs fuel l).flatten = l := by
  induction fuel with
  | zero =>
    intro l hl
    cases l with
    | nil => rfl
    | cons x xs => simp at hl
  | succ f ih =>
    intro l hl
    cases l with
    | nil => rfl
    | cons x xs =>
      cases bs with
      | zero => simp [chunkGo]
      | succ b =>
        simp only [chunkGo, List.flatten_cons]
        rw [ih (xs.drop b) (by
          simp only [List.length_drop]
          simp only [List.length_cons] at hl
          omega)]
        exact List.take_append_drop _ _

theorem chunkList_flatten (bs : Nat) (l : List α) :
    (chunkList bs l).flatten = l :=
  chunkGo_flatten bs l.length l le_rfl

theorem mapM_ok_of_forall_ok {α β : Type} (f : α → Except Unit β) (g : α → β)
    (l : List α) (h : ∀ x ∈ l, f x = .ok (g x)) : l.mapM f = .ok (l.map g) := by
  induction l with
  | nil => rfl
  | cons x xs ih =>
    rw [List.mapM_cons, h x (by simp), ih (fun y hy => h y (by simp [hy]))]
    simp [exceptOkBind, exceptPure]

theorem batchChunks_allfail_eq_mapM (cap : Capability) (cfg : Config)
    (ets : List String) (rts : List (String × String)) (ic is : Bool)
    (cs : List (List String))
    (hbf : ∀ c ∈ cs, cap.batchFails c ⟨ets, rts⟩ = true) :
    batchChunks cap cfg ets rts ic is cs =
      (cs.flatten).mapM
        (fun t => extract cap cfg t (some ets) (some rts) ic is) := by
  induction cs with
  | nil => rfl
  | cons c rest ih =>
    have hc := hbf c (by simp)
    rw [List.flatten_cons, List.mapM_append]
    have hcr : batchChunkResult cap cfg ets rts ic is c =
        c.mapM (fun t => extract cap cfg t (some ets) (some rts) ic is) := by
      unfold batchChunkResult
      rw [if_pos hc]
    simp only [batchChunks]
    rw [hcr, ih (fun c' h' => hbf c' (by simp [h']))]
    rfl

/-- C2: when the capability-backed batch call raises for every chunk,
`batch_extract` returns exactly the sequential composition of single-text
`extract` over the input, with the same entity and relation types; in
particular each chunk's contribution is the per-item extraction of its
texts, position for position. -/
theorem c2_fallback_equivalence (cap : Capability) (cfg : Config)
    (texts : List String) (ets : List String) (rts : List (String × String))
    (bs : Nat) (ic is : Bool) (hbs : 0 < bs)
    (hbf : ∀ c ∈ chunkList bs texts, cap.batchFails c ⟨ets, rts⟩ = true) :
    batch_extract cap cfg texts (some ets) (some rts) bs ic is =
      texts.mapM (fun t => extract cap cfg t (some ets) (some rts) ic is) := by
  unfold batch_extract
  simp only [Option.getD_some]
  rw [batchChunks_allfail_eq_mapM cap cfg ets rts ic is _ hbf,
    chunkList_flatten]

/-- A capability whose every extraction call raises (classification
succeeds vacuously), used to exercise the failure paths concretely. -/
def demoFailingCap : Capability :=
  { rawOf := fun _ _ => emptyRaw
    extractFails := fun _ _ => true
    batchFails := fun _ _ => true
    clsOf := fun _ _ => []
    clsSingleFails := fun _ _ => false
    clsBatchFails := fun _ _ => false }

/-- Concrete instance for C2, evaluated to the final value: with a capability
whose batch call always fails, the batch output equals the sequential
single-text extraction of each input. -/
theorem c2_fallback_equivalence_witness :
    batch_extract demoFailingCap builtinConfig
        ["Apple hired Jane Smith.", "GDPR applies."]
        (some ["person", "organization"]) (some []) 32 true true =
      .ok [{ entities := [], relations := [] },
           { entities := [], relations := [] }] :=
  (c2_fallback_equivalence demoFailingCap builtinConfig
      ["Apple hired Jane Smith.", "GDPR applies."]
      ["person", "organization"] [] 32 true true
      (by decide) (by decide)).trans (by decide)

/-- Counterexample to C4 as stated: the capability raises both for the batch
call (forcing the sequential fallback) and for the single-item call inside
the fallback, yet `batch_extract` completes normally with an empty result for
the item — nothing propagates. -/
theorem c4_fallback_failure_not_fatal :
    batch_extract demoFailingCap builtinConfig ["The contract of the parties"]
        none none 32 true true =
      .ok [{ entities := [], relations := [] }] := by decide

/-- Single-text `extract` turns a raised capability call into the empty raw
result, which normalises to the empty extraction result. -/
theorem extract_capability_failure_empty (cap : Capability) (cfg : Config)
    (t : String) (ets : List String) (rts : List (String × String))
    (ic is : Bool) (hef : cap.extractFails t ⟨ets, rts⟩ = true) :
    extract cap cfg t (some ets) (some rts) ic is =
      .ok { entities := [], relations := [] } := by
  unfold extract
  simp only [Option.getD_some, hef, if_true]
  rfl

/-- C4 (amended): a capability failure for an item inside the sequential
fallback is caught inside the single-text `extract`, which substitutes the
empty raw result; the batch call completes normally, yielding an empty
`ExtractionResult` for every failed item rather than propagating the
error. -/
theorem c4_fallback_item_failure_caught (cap : Capability) (cfg : Config)
    (texts : List String) (ets : List String) (rts : List (String × String))
    (bs : Nat) (ic is : Bool) (hbs : 0 < bs)
    (hbf : ∀ c ∈ chunkList bs texts, cap.batchFails c ⟨ets, rts⟩ = true)
    (hef : ∀ t ∈ texts, cap.extractFails t ⟨ets, rts⟩ = true) :
    batch_extract cap cfg texts (some ets) (some rts) bs ic is =
      .ok (texts.map fun _ => { entities := [], relations := [] }) := by
  rw [c2_fallback_equivalence cap cfg texts ets rts bs ic is hbs hbf]
  exact mapM_ok_of_forall_ok _ _ _
    (fun t ht => extract_capability_failure_empty cap cfg t ets rts ic is
      (hef t ht))

/-- Concrete instance for C4 (amended). -/
theorem c4_fallback_item_failure_caught_witness :
    batch_extract demoFailingCap builtinConfig ["a", "b", "c"]
        (some ["person"]) (some []) 2 true true =
      .ok (["a", "b", "c"].map fun _ =>
        ({ entities := [], relations := [] } : ExtractionResult)) :=
  c4_fallback_item_failure_caught demoFailingCap builtinConfig ["a", "b", "c"]
    ["person"] [] 2 true true (by decide) (by decide) (by decide)

/-- Resolution order of a tuple-shaped relation hit's confidence: explicit
non-null third tuple element first, else the mean of the two endpoint
confidences when both are present, else absent (the inline computation of
`extractor.py` lines 148–156). -/
def relTupleConf (subj obj : Endp) (rest : List (Option ℚ)) : Option ℚ :=
  match rest.head? with
  | some (some c) => some c
  | _ =>
    match endpConf subj, endpConf obj with
    | some a, some b => some ((a + b) / 2)
    | _, _ => none

theorem parseRelItem_tup_conf (rt : String) (subj obj : Endp)
    (rest : List (Option ℚ))
    (hok : ∀ c, relTupleConf subj obj rest = some c → 0 ≤ c ∧ c ≤ 1) :
    parseRelItem rt true (.tup subj obj rest) =
      .ok (some { subject := endpText subj, predicate := rt,
                  object := endpText obj,
                  confidence := relTupleConf subj obj rest }) := by
  have hcc : checkConfidence (relTupleConf subj obj rest) =
      .ok (relTupleConf subj obj rest) := by
    cases hv : relTupleConf subj obj rest with
    | none => rfl
    | some c =>
      have hb := hok c hv
      simp [checkConfidence, hb.1, hb.2]
  simp only [parseRelItem, if_true]
  rw [show (match rest.head? with
      | some (some c) => some c
      | _ =>
        match endpConf subj, endpConf obj with
        | some a, some b => some ((a + b) / 2)
        | _, _ => none) = relTupleConf subj obj rest from rfl]
  rw [hcc]
  rfl

/-- C8: normalising a raw result whose single relation hit is a tuple
`(subject, object, rest...)` with confidence requested produces exactly one
relation whose endpoints are the unwrapped surface strings (`text` before
`name`) and whose confidence follows the resolution order: non-null third
element, else mean of the endpoint confidences, else absent; the bounds
hypothesis reflects the pydantic validation of the resolved value. -/
theorem c8_tuple_relation_confidence (rt : String) (subj obj : Endp)
    (rest : List (Option ℚ)) (is : Bool)
    (hok : ∀ c, relTupleConf subj obj rest = some c → 0 ≤ c ∧ c ≤ 1) :
    parseExtractionResult
        { entities := [], relations := [(rt, some [.tup subj obj rest])] }
        true is =
      .ok { entities := [],
            relations := [{ subject := endpText subj, predicate := rt,
                            object := endpText obj,
                            confidence := relTupleConf subj obj rest }] } := by
  unfold parseExtractionResult
  rw [show parseEntities true is ([] : List (String × Option (List EntHit)))
      = .ok [] from rfl]
  simp only [exceptOkBind]
  simp only [parseRelations, parseRelItems]
  rw [parseRelItem_tup_conf rt subj obj rest hok]
  simp only [exceptOkBind]
  rfl

/-- Concrete instance for C8: a dict subject with per-endpoint confidence, a
bare-string object, and an explicit third tuple element 1; the explicit
element wins and the endpoints unwrap to their surface strings. -/
theorem c8_tuple_relation_confidence_witness :
    parseExtractionResult
        { entities := [],
          relations := [("works_for",
            some [.tup (.dict (some "Jane Smith") none (some 1) none "r1")
                       (.str "Apple") [some 1]])] }
        true true =
      .ok { entities := [],
            relations := [{ subject := "Jane Smith", predicate := "works_for",
                            object := "Apple", confidence := some 1 }] } :=
  (c8_tuple_relation_confidence "works_for"
      (.dict (some "Jane Smith") none (some 1) none "r1") (.str "Apple")
      [some 1] true (by decide)).trans (by decide)

/-! Lemmas for the heuristic classifier. -/

theorem sortDesc_pairwise (l : List DomainHit) :
    (sortDesc l).Pairwise (fun a b => b.conf ≤ a.conf) := by
  have h := @List.sorted_mergeSort DomainHit
    (fun a b : DomainHit => decide (b.conf ≤ a.conf))
    (fun a b c hab hbc => by
      simp only [decide_eq_true_eq] at hab hbc ⊢
      exact le_trans hbc hab)
    (fun a b => by
      simp only [Bool.or_eq_true, decide_eq_true_eq]
      exact le_total b.conf a.conf)
    l
  exact h.imp (fun hab => of_decide_eq_true hab)

theorem mem_sortDesc (l : List DomainHit) (x : DomainHit) :
    x ∈ sortDesc l ↔ x ∈ l :=
  (List.mergeSort_perm l _).mem_iff

theorem nodup_fst_inj {α β : Type} [DecidableEq α] (l : List (α × β))
    (h : (l.map Prod.fst).Nodup) {a : α} {b b' : β}
    (h1 : (a, b) ∈ l) (h2 : (a, b') ∈ l) : b = b' := by
  induction l with
  | nil => cases h1
  | cons p rest ih =>
    simp only [List.map_cons, List.nodup_cons] at h
    rcases List.mem_cons.mp h1 with he1 | hm1 <;>
      rcases List.mem_cons.mp h2 with he2 | hm2
    · exact congrArg Prod.snd (he1.trans he2.symm)
    · exfalso
      apply h.1
      rw [← he1]
      have hmm := List.mem_map_of_mem Prod.fst hm2
      simpa using hmm
    · exfalso
      apply h.1
      rw [← he2]
      have hmm := List.mem_map_of_mem Prod.fst hm1
      simpa using hmm
    · exact ih h.2 hm1 hm2

theorem heuristicHit_eq (text : String) (thr : ℚ) (d : String)
    (kws : List String) (hkne : kws ≠ []) :
    heuristicHit text thr (d, kws) =
      (if thr < ((kws.filter (fun kw =>
            strContains text.toLower kw)).length : ℚ) / (kws.length : ℚ)
       then some { label := some d,
                   conf := min ((((kws.filter (fun kw =>
                       strContains text.toLower kw)).length : ℚ)
                     / (kws.length : ℚ)) * 2) 1 }
       else none) := by
  simp only [heuristicHit]
  rw [if_pos hkne]

/-- C9: for every text and threshold, the heuristic classifier reports a
domain of the keyword table (all of whose keyword lists are non-empty)
exactly when its keyword-overlap score `hits / len(keywords)` over the
lower-cased text exceeds the threshold, with confidence
`min(score * 2, 1)`; and the output is sorted descending by confidence. -/
theorem c9_heuristic_classification (text : String) (thr : ℚ) :
    (∀ d kws, (d, kws) ∈ CLASSIFICATION_KEYWORDS → kws ≠ [] →
      (({ label := some d,
          conf := min ((((kws.filter (fun kw =>
              strContains text.toLower kw)).length : ℚ)
            / (kws.length : ℚ)) * 2) 1 } : DomainHit)
          ∈ classify_domains_heuristic text thr ↔
        thr < ((kws.filter (fun kw =>
            strContains text.toLower kw)).length : ℚ) / (kws.length : ℚ))) ∧
    (classify_domains_heuristic text thr).Pairwise
      (fun a b => b.conf ≤ a.conf) := by
  constructor
  · intro d kws htab hkne
    have hnd : (CLASSIFICATION_KEYWORDS.map Prod.fst).Nodup := by decide
    rw [classify_domains_heuristic, mem_sortDesc, List.mem_filterMap]
    constructor
    · rintro ⟨p, hp, hfp⟩
      obtain ⟨p1, p2⟩ := p
      simp only [heuristicHit] at hfp
      split at hfp
      case isTrue hp2 =>
        split at hfp
        case isTrue hlt =>
          injection hfp with hrec
          have hl : p1 = d := by
            have hlab := congrArg DomainHit.label hrec
            simpa using hlab
          subst hl
          have hk : p2 = kws := nodup_fst_inj _ hnd hp htab
          subst hk
          exact hlt
        case isFalse => exact Option.noConfusion hfp
      case isFalse hp2 =>
        split at hfp
        case isTrue hlt0 =>
          injection hfp with hrec
          have hl : p1 = d := by
            have hlab := congrArg DomainHit.label hrec
            simpa using hlab
          subst hl
          have hk : p2 = kws := nodup_fst_inj _ hnd hp htab
          subst hk
          exact absurd (not_not.mp hp2) hkne
        case isFalse => exact Option.noConfusion hfp
    · intro hlt
      refine ⟨(d, kws), htab, ?_⟩
      rw [heuristicHit_eq text thr d kws hkne, if_pos hlt]
  · exact sortDesc_pairwise _

/-- Concrete instance for C9: five legal keywords occur in the text, so
`legal` is reported with score 5/10 and confidence `min(10/10, 1) = 1`. -/
theorem c9_heuristic_classification_witness :
    ({ label := some "legal",
       conf := min ((((["contract", "clause", "obligation", "party",
              "jurisdiction", "agreement", "terms", "conditions", "liability",
              "warrant"].filter (fun kw => strContains
                ("contract clause obligation party jurisdiction").toLower
                kw)).length : ℚ)
          / ((["contract", "clause", "obligation", "party", "jurisdiction",
              "agreement", "terms", "conditions", "liability",
              "warrant"] : List String).length : ℚ)) * 2) 1 } : DomainHit)
      ∈ classify_domains_heuristic
          "contract clause obligation party jurisdiction" 0 :=
  ((c9_heuristic_classification
      "contract clause obligation party jurisdiction" 0).1 "legal"
      ["contract", "clause", "obligation", "party", "jurisdiction",
       "agreement", "terms", "conditions", "liability", "warrant"]
      (by decide) (by decide)).mpr (by with_unfolding_all decide)

/-! Grouping lemmas for the auto-domain pipeline. -/

theorem keyOfLabels_perm (l1 l2 : List String) (h : l1.Perm l2) :
    keyOfLabels l1 = keyOfLabels l2 := by
  by_cases h1 : l1 = []
  · subst h1
    rw [← h.nil_eq]
  · have h2 : l2 ≠ [] := fun e => h1 (by rw [e] at h; exact h.eq_nil)
    unfold keyOfLabels
    rw [if_neg h1, if_neg h2]
    have hs1 := @List.sorted_mergeSort String
      (fun a b : String => decide (a ≤ b))
      (fun a b c hab hbc => by
        simp only [decide_eq_true_eq] at hab hbc ⊢
        exact le_trans hab hbc)
      (fun a b => by
        simp only [Bool.or_eq_true, decide_eq_true_eq]
        exact le_total a b)
      l1
    have hs2 := @List.sorted_mergeSort String
      (fun a b : String => decide (a ≤ b))
      (fun a b c hab hbc => by
        simp only [decide_eq_true_eq] at hab hbc ⊢
        exact le_trans hab hbc)
      (fun a b => by
        simp only [Bool.or_eq_true, decide_eq_true_eq]
        exact le_total a b)
      l2
    have hp : (l1.mergeSort (fun a b => decide (a ≤ b))).Perm
        (l2.mergeSort (fun a b => decide (a ≤ b))) :=
      ((List.mergeSort_perm l1 _).trans h).trans
        (List.mergeSort_perm l2 _).symm
    exact List.eq_of_perm_of_sorted hp
      (hs1.imp fun hab => of_decide_eq_true hab)
      (hs2.imp fun hab => of_decide_eq_true hab)

theorem addToGroups_sub (gs : List (List String × List (Nat × String)))
    (key : List String) (v : Nat × String) (k : List String)
    (vs : List (Nat × String)) (h : (k, vs) ∈ gs) :
    ∃ vs', (k, vs') ∈ addToGroups gs key v ∧ ∀ x ∈ vs, x ∈ vs' := by
  induction gs with
  | nil => cases h
  | cons g rest ih =>
    obtain ⟨gk, gvs⟩ := g
    by_cases hk : gk = key
    · simp only [addToGroups, if_pos hk]
      rcases List.mem_cons.mp h with he | hm
      · have h1 : k = gk := congrArg Prod.fst he
        have h2 : vs = gvs := congrArg Prod.snd he
        subst h1
        subst h2
        exact ⟨vs ++ [v], by simp, fun x hx => by simp [hx]⟩
      · exact ⟨vs, by simp [hm], fun x hx => hx⟩
    · simp only [addToGroups, if_neg hk]
      rcases List.mem_cons.mp h with he | hm
      · exact ⟨vs, by rw [he]; simp, fun x hx => hx⟩
      · rcases ih hm with ⟨vs', hvs', hsub⟩
        exact ⟨vs', by simp [hvs'], hsub⟩

theorem addToGroups_self (gs : List (List String × List (Nat × String)))
    (key : List String) (v : Nat × String) :
    ∃ vs', (key, vs') ∈ addToGroups gs key v ∧ v ∈ vs' := by
  induction gs with
  | nil => exact ⟨[v], by simp [addToGroups], by simp⟩
  | cons g rest ih =>
    obtain ⟨gk, gvs⟩ := g
    by_cases hk : gk = key
    · refine ⟨gvs ++ [v], ?_, by simp⟩
      simp only [addToGroups, if_pos hk]
      rw [hk]
      simp
    · rcases ih with ⟨vs', h1, h2⟩
      exact ⟨vs', by simp only [addToGroups, if_neg hk]; simp [h1], h2⟩

theorem addToGroups_sound (gs : List (List String × List (Nat × String)))
    (key : List String) (v : Nat × String) (k : List String)
    (vs : List (Nat × String)) (h : (k, vs) ∈ addToGroups gs key v) :
    ∀ x ∈ vs, (∃ vs₀, (k, vs₀) ∈ gs ∧ x ∈ vs₀) ∨ (x = v ∧ k = key) := by
  induction gs with
  | nil =>
    simp only [addToGroups, List.mem_singleton] at h
    intro x hx
    have h1 : k = key := congrArg Prod.fst h
    have h2 : vs = [v] := congrArg Prod.snd h
    subst h2
    right
    exact ⟨List.mem_singleton.mp hx, h1⟩
  | cons g rest ih =>
    obtain ⟨gk, gvs⟩ := g
    by_cases hk : gk = key
    · simp only [addToGroups, if_pos hk] at h
      rcases List.mem_cons.mp h with he | hm
      · have h1 : k = gk := congrArg Prod.fst he
        have h2 : vs = gvs ++ [v] := congrArg Prod.snd he
        subst h1
        subst h2
        intro x hx
        rcases List.mem_append.mp hx with hx1 | hx2
        · exact Or.inl ⟨gvs, by simp, hx1⟩
        · exact Or.inr ⟨List.mem_singleton.mp hx2, hk⟩
      · intro x hx
        exact Or.inl ⟨vs, by simp [hm], hx⟩
    · simp only [addToGroups, if_neg hk] at h
      rcases List.mem_cons.mp h with he | hm
      · intro x hx
        exact Or.inl ⟨vs, by rw [he]; simp, hx⟩
      · intro x hx
        rcases ih hm x hx with ⟨vs₀, hv0, hx0⟩ | hr
        · exact Or.inl ⟨vs₀, by simp [hv0], hx0⟩
        · exact Or.inr hr

theorem addToGroups_map_fst (gs : List (List String × List (Nat × String)))
    (key : List String) (v : Nat × String) :
    (addToGroups gs key v).map Prod.fst =
      if key ∈ gs.map Prod.fst then gs.map Prod.fst
      else gs.map Prod.fst ++ [key] := by
  induction gs with
  | nil => simp [addToGroups]
  | cons g rest ih =>
    obtain ⟨gk, gvs⟩ := g
    by_cases hk : gk = key
    · subst hk
      simp [addToGroups]
    · simp only [addToGroups, if_neg hk, List.map_cons, ih]
      by_cases hmem : key ∈ rest.map Prod.fst
      · rw [if_pos hmem, if_pos (by simp [hmem])]
      · have hni : key ∉ gk :: rest.map Prod.fst := by
          simp only [List.mem_cons]
          rintro (he | hm)
          · exact hk he.symm
          · exact hmem hm
        rw [if_neg hmem, if_neg hni]
        simp

theorem addToGroups_fst_nodup (gs : List (List String × List (Nat × String)))
    (key : List String) (v : Nat × String)
    (h : (gs.map Prod.fst).Nodup) :
    ((addToGroups gs key v).map Prod.fst).Nodup := by
  rw [addToGroups_map_fst]
  split
  · exact h
  next hni => simp [List.nodup_append, h, hni]

theorem foldGroups_sub (l : List (Nat × String × List DomainHit)) :
    ∀ (gs₀ : List (List String × List (Nat × String))) (k : List String)
      (vs : List (Nat × String)), (k, vs) ∈ gs₀ →
    ∃ vs', (k, vs') ∈ l.foldl (fun gs x =>
        addToGroups gs (keyOfLabels (labelsOf x.2.2)) (x.1, x.2.1)) gs₀ ∧
      ∀ x ∈ vs, x ∈ vs' := by
  induction l with
  | nil => intro gs₀ k vs h; exact ⟨vs, h, fun x hx => hx⟩
  | cons y ys ih =>
    intro gs₀ k vs h
    rw [List.foldl_cons]
    rcases addToGroups_sub gs₀ _ _ k vs h with ⟨vs1, h1, hsub1⟩
    rcases ih _ k vs1 h1 with ⟨vs2, h2, hsub2⟩
    exact ⟨vs2, h2, fun x hx => hsub2 x (hsub1 x hx)⟩

theorem foldGroups_mem (l : List (Nat × String × List DomainHit)) :
    ∀ (gs₀ : List (List String × List (Nat × String)))
      (x : Nat × String × List DomainHit), x ∈ l →
    ∃ vs, (keyOfLabels (labelsOf x.2.2), vs) ∈ l.foldl (fun gs x =>
        addToGroups gs (keyOfLabels (labelsOf x.2.2)) (x.1, x.2.1)) gs₀ ∧
      (x.1, x.2.1) ∈ vs := by
  induction l with
  | nil => intro _ x h; cases h
  | cons y ys ih =>
    intro gs₀ x h
    rw [List.foldl_cons]
    rcases List.mem_cons.mp h with rfl | hm
    · rcases addToGroups_self gs₀ (keyOfLabels (labelsOf x.2.2)) (x.1, x.2.1)
        with ⟨vs1, h1, hv1⟩
      rcases foldGroups_sub ys _ _ _ h1 with ⟨vs2, h2, hsub⟩
      exact ⟨vs2, h2, hsub _ hv1⟩
    · exact ih _ x hm

theorem buildGroups_mem (l : List (Nat × String × List DomainHit))
    (x : Nat × String × List DomainHit) (h : x ∈ l) :
    ∃ vs, (keyOfLabels (labelsOf x.2.2), vs) ∈ buildGroups l ∧
      (x.1, x.2.1) ∈ vs :=
  foldGroups_mem l [] x h

theorem foldGroups_sound (P : (Nat × String) → List String → Prop)
    (l : List (Nat × String × List DomainHit)) :
    ∀ (gs₀ : List (List String × List (Nat × String))),
    (∀ k vs, (k, vs) ∈ gs₀ → ∀ x ∈ vs, P x k) →
    (∀ y ∈ l, P (y.1, y.2.1) (keyOfLabels (labelsOf y.2.2))) →
    ∀ k vs, (k, vs) ∈ l.foldl (fun gs x =>
        addToGroups gs (keyOfLabels (labelsOf x.2.2)) (x.1, x.2.1)) gs₀ →
    ∀ x ∈ vs, P x k := by
  induction l with
  | nil => intro gs₀ hbase _ k vs h; exact hbase k vs h
  | cons y ys ih =>
    intro gs₀ hbase hl k vs h x hx
    rw [List.foldl_cons] at h
    refine ih _ ?_ (fun z hz => hl z (by simp [hz])) k vs h x hx
    intro k' vs' h' x' hx'
    rcases addToGroups_sound gs₀ _ _ k' vs' h' x' hx' with ⟨vs₀, h0, hx0⟩ | ⟨he, hke⟩
    · exact hbase k' vs₀ h0 x' hx0
    · rw [he, hke]
      exact hl y (by simp)

theorem buildGroups_sound (P : (Nat × String) → List String → Prop)
    (l : List (Nat × String × List DomainHit))
    (hl : ∀ y ∈ l, P (y.1, y.2.1) (keyOfLabels (labelsOf y.2.2))) :
    ∀ k vs, (k, vs) ∈ buildGroups l → ∀ x ∈ vs, P x k :=
  foldGroups_sound P l [] (fun _ _ h => absurd h (List.not_mem_nil _)) hl

theorem foldGroups_fst_nodup (l : List (Nat × String × List DomainHit)) :
    ∀ (gs₀ : List (List String × List (Nat × String))),
    (gs₀.map Prod.fst).Nodup →
    ((l.foldl (fun gs x =>
        addToGroups gs (keyOfLabels (labelsOf x.2.2)) (x.1, x.2.1)) gs₀).map
      Prod.fst).Nodup := by
  induction l with
  | nil => intro gs₀ h; exact h
  | cons y ys ih =>
    intro gs₀ h
    rw [List.foldl_cons]
    exact ih _ (addToGroups_fst_nodup gs₀ _ _ h)

theorem buildGroups_fst_nodup (l : List (Nat × String × List DomainHit)) :
    ((buildGroups l).map Prod.fst).Nodup :=
  foldGroups_fst_nodup l [] (by simp)

/-! Per-text shape of a batch classification call. -/

theorem classify_domains_batch_eq_map (cap : Capability) (texts : List String)
    (thr : ℚ) (bs : Nat) :
    classify_domains_batch cap texts thr bs =
      texts.map (clsPerText cap texts thr bs) := by
  unfold classify_domains_batch
  by_cases he : texts.isEmpty
  · rw [if_pos he, List.isEmpty_iff.mp he]
    rfl
  · rw [if_neg he]
    by_cases hf : (chunkList bs texts).any (fun c => cap.clsBatchFails c thr)
    · rw [if_pos hf]
      have hfn : clsPerText cap texts thr bs =
          fun t => classify_domains cap t thr := by
        funext t
        unfold clsPerText
        rw [if_pos hf]
      rw [hfn]
    · rw [if_neg hf]
      have hflat : (chunkList bs texts).flatMap
          (fun c => c.map (fun t => cap.clsOf t thr)) =
          texts.map (fun t => cap.clsOf t thr) := by
        rw [List.flatMap_def, ← List.map_flatten, chunkList_flatten]
      rw [hflat, List.map_map]
      have hfn : clsPerText cap texts thr bs =
          fun t => sortDesc ((cap.clsOf t thr).map (parseClsHit thr)) := by
        funext t
        unfold clsPerText
        rw [if_neg hf]
      rw [hfn]
      rfl

theorem autoClassifications_eq_map (cap : Capability) (texts : List String)
    (bs : Nat) (thr : ℚ) (maxd : Nat) :
    autoClassifications cap texts bs thr maxd =
      texts.map (fun t => (clsPerText cap texts thr (bs * 2) t).take maxd) := by
  unfold autoClassifications
  rw [classify_domains_batch_eq_map, List.map_map]
  rfl

theorem autoEnum_length (cap : Capability) (texts : List String) (bs : Nat)
    (thr : ℚ) (maxd : Nat) :
    (autoEnum cap texts bs thr maxd).length = texts.length := by
  unfold autoEnum
  rw [autoClassifications_eq_map]
  simp

theorem autoEnum_getElem (cap : Capability) (texts : List String) (bs : Nat)
    (thr : ℚ) (maxd : Nat) (i : Nat) (hi : i < texts.length)
    (hlen : i < (autoEnum cap texts bs thr maxd).length) :
    (autoEnum cap texts bs thr maxd)[i] =
      (i, texts[i],
        (clsPerText cap texts thr (bs * 2) texts[i]).take maxd) := by
  simp [autoEnum, autoClassifications_eq_map]

theorem autoEnum_mem (cap : Capability) (texts : List String) (bs : Nat)
    (thr : ℚ) (maxd : Nat) (i : Nat) (hi : i < texts.length) :
    (i, texts[i],
      (clsPerText cap texts thr (bs * 2) texts[i]).take maxd) ∈
      autoEnum cap texts bs thr maxd := by
  apply List.mem_iff_getElem.mpr
  refine ⟨i, by rw [autoEnum_length]; exact hi, ?_⟩
  rw [autoEnum_getElem cap texts bs thr maxd i hi]

/-- C7: two input texts whose truncated classification label lists are equal
as sets (any order) are routed to the same grouping key and land in the same
group of the auto-domain pipeline; a text with no surviving label gets the
key `("default",)`. -/
theorem c7_grouping_determinism (cap : Capability) (texts : List String)
    (bs : Nat) (thr : ℚ) (maxd : Nat) (i j : Nat)
    (hi : i < texts.length) (hj : j < texts.length)
    (hperm : (labelsOf ((clsPerText cap texts thr (bs * 2) texts[i]).take maxd)).Perm
             (labelsOf ((clsPerText cap texts thr (bs * 2) texts[j]).take maxd))) :
    routedKey cap texts bs thr maxd texts[i] =
      routedKey cap texts bs thr maxd texts[j] ∧
    (∃ vs, (routedKey cap texts bs thr maxd texts[i], vs) ∈
        autoGroups cap texts bs thr maxd ∧
      (i, texts[i]) ∈ vs ∧ (j, texts[j]) ∈ vs) ∧
    (labelsOf ((clsPerText cap texts thr (bs * 2) texts[i]).take maxd) = [] →
      routedKey cap texts bs thr maxd texts[i] = ["default"]) := by
  have hkey : routedKey cap texts bs thr maxd texts[i] =
      routedKey cap texts bs thr maxd texts[j] :=
    keyOfLabels_perm _ _ hperm
  refine ⟨hkey, ?_, ?_⟩
  · rcases buildGroups_mem (autoEnum cap texts bs thr maxd)
      (i, texts[i], (clsPerText cap texts thr (bs * 2) texts[i]).take maxd)
      (autoEnum_mem cap texts bs thr maxd i hi) with ⟨vsi, hgi, hvi⟩
    rcases buildGroups_mem (autoEnum cap texts bs thr maxd)
      (j, texts[j], (clsPerText cap texts thr (bs * 2) texts[j]).take maxd)
      (autoEnum_mem cap texts bs thr maxd j hj) with ⟨vsj, hgj, hvj⟩
    have hgj' : (routedKey cap texts bs thr maxd texts[i], vsj) ∈
        autoGroups cap texts bs thr maxd := by
      rw [hkey]
      exact hgj
    have hvv : vsi = vsj :=
      nodup_fst_inj _ (buildGroups_fst_nodup _) hgi hgj'
    exact ⟨vsi, hgi, hvi, hvv ▸ hvj⟩
  · intro h0
    unfold routedKey
    rw [h0]
    rfl

/-- A capability for exercising the grouping: classification reports
`legal` (confidence 1) for every text, plus `code` (confidence 0) for the
text `"legal code text"`; extraction always succeeds with the empty raw
result. -/
def demoClsCap : Capability :=
  { rawOf := fun _ _ => emptyRaw
    extractFails := fun _ _ => false
    batchFails := fun _ _ => false
    clsOf := fun t _ =>
      if t = "legal code text" then
        [.dict (some "legal") (some 1) none, .dict (some "code") (some 0) none]
      else [.dict (some "legal") (some 1) none]
    clsSingleFails := fun _ _ => false
    clsBatchFails := fun _ _ => false }

/-- Concrete instance for C7: with `max_domains = 1`, a text classified
`["legal"]` and one classified `["legal","code"]` (truncated to `["legal"]`)
get the same key and land in the same group. -/
theorem c7_grouping_determinism_witness :
    routedKey demoClsCap ["pure legal text", "legal code text"] 32 0 1
        (["pure legal text", "legal code text"][0]) =
      routedKey demoClsCap ["pure legal text", "legal code text"] 32 0 1
        (["pure legal text", "legal code text"][1]) ∧
    (∃ vs, (routedKey demoClsCap ["pure legal text", "legal code text"] 32 0 1
          (["pure legal text", "legal code text"][0]), vs) ∈
        autoGroups demoClsCap ["pure legal text", "legal code text"] 32 0 1 ∧
      (0, ["pure legal text", "legal code text"][0]) ∈ vs ∧
      (1, ["pure legal text", "legal code text"][1]) ∈ vs) ∧
    (labelsOf ((clsPerText demoClsCap ["pure legal text", "legal code text"] 0
          (32 * 2) (["pure legal text", "legal code text"][0])).take 1) = [] →
      routedKey demoClsCap ["pure legal text", "legal code text"] 32 0 1
        (["pure legal text", "legal code text"][0]) = ["default"]) :=
  c7_grouping_determinism demoClsCap ["pure legal text", "legal code text"]
    32 0 1 0 1 (by decide) (by decide) (by with_unfolding_all decide)

/-! Pointwise shape of `batch_extract` when the capability's raw results all
normalise successfully. -/

theorem parseValueRaw_spec (r : RawResult) (ic is : Bool)
    (h : (parseExtractionResult r ic is).isOk = true) :
    parseExtractionResult r ic is = .ok (parseValueRaw r ic is) := by
  unfold parseValueRaw
  cases he : parseExtractionResult r ic is with
  | error e => rw [he] at h; simp [Except.isOk, Except.toBool] at h
  | ok v => rfl

theorem parseOkLeading_all_ok (ic is : Bool) (rs : List RawResult)
    (h : ∀ r ∈ rs, (parseExtractionResult r ic is).isOk = true) :
    parseOkLeading ic is rs = (rs.map (fun r => parseValueRaw r ic is), false) := by
  induction rs with
  | nil => rfl
  | cons r rest ih =>
    have hr := parseValueRaw_spec r ic is (h r (by simp))
    simp only [parseOkLeading, hr, ih (fun x hx => h x (by simp [hx])), List.map_cons]

theorem extract_eq_parse (cap : Capability) (cfg : Config) (t : String)
    (ets : List String) (rts : List (String × String)) (ic is : Bool)
    (hsf : cap.extractFails t ⟨ets, rts⟩ = false) :
    extract cap cfg t (some ets) (some rts) ic is =
      parseExtractionResult (cap.rawOf t ⟨ets, rts⟩) ic is := by
  unfold extract
  simp only [Option.getD_some, hsf, Bool.false_eq_true, if_false]

theorem batchChunks_all_ok (cap : Capability) (cfg : Config)
    (ets : List String) (rts : List (String × String)) (ic is : Bool)
    (cs : List (List String))
    (hsf : ∀ t ∈ cs.flatten, cap.extractFails t ⟨ets, rts⟩ = false)
    (hok : ∀ t ∈ cs.flatten,
      (parseExtractionResult (cap.rawOf t ⟨ets, rts⟩) ic is).isOk = true) :
    batchChunks cap cfg ets rts ic is cs =
      .ok ((cs.flatten).map
        (fun t => parseValueRaw (cap.rawOf t ⟨ets, rts⟩) ic is)) := by
  induction cs with
  | nil => rfl
  | cons c rest ih =>
    have hmemc : ∀ t ∈ c, t ∈ (c :: rest).flatten :=
      fun t ht => List.mem_flatten.mpr ⟨c, by simp, ht⟩
    have hchunk : batchChunkResult cap cfg ets rts ic is c =
        Except.ok (c.map
          (fun t => parseValueRaw (cap.rawOf t ⟨ets, rts⟩) ic is)) := by
      unfold batchChunkResult
      by_cases hbf : cap.batchFails c ⟨ets, rts⟩
      · rw [if_pos hbf]
        apply mapM_ok_of_forall_ok
        intro t ht
        rw [extract_eq_parse cap cfg t ets rts ic is (hsf t (hmemc t ht))]
        exact parseValueRaw_spec _ _ _ (hok t (hmemc t ht))
      · rw [if_neg hbf]
        rw [parseOkLeading_all_ok ic is _ (by
          intro r hr
          rcases List.mem_map.mp hr with ⟨t, ht, he⟩
          rw [← he]
          exact hok t (hmemc t ht))]
        rw [List.map_map]
        rfl
    simp only [batchChunks]
    rw [hchunk,
      ih (fun t ht => hsf t (by simp only [List.flatten_cons]; exact List.mem_append_right _ ht))
        (fun t ht => hok t (by simp only [List.flatten_cons]; exact List.mem_append_right _ ht))]
    simp only [exceptOkBind]
    rw [List.flatten_cons, List.map_append]

theorem batch_extract_all_ok (cap : Capability) (cfg : Config)
    (ts : List String) (ets : List String) (rts : List (String × String))
    (bs : Nat) (ic is : Bool)
    (hsf : ∀ t ∈ ts, cap.extractFails t ⟨ets, rts⟩ = false)
    (hok : ∀ t ∈ ts,
      (parseExtractionResult (cap.rawOf t ⟨ets, rts⟩) ic is).isOk = true) :
    batch_extract cap cfg ts (some ets) (some rts) bs ic is =
      .ok (ts.map (fun t => parseValue cap t ⟨ets, rts⟩ ic is)) := by
  unfold batch_extract
  simp only [Option.getD_some]
  rw [batchChunks_all_ok cap cfg ets rts ic is (chunkList bs ts)
    (fun t ht => hsf t (by rwa [chunkList_flatten] at ht))
    (fun t ht => hok t (by rwa [chunkList_flatten] at ht))]
  rw [chunkList_flatten]
  rfl

theorem processGroups_all_ok (cap : Capability) (cfg : Config)
    (presets : List (String × Preset)) (bs : Nat) (ic is : Bool)
    (gs : List (List String × List (Nat × String)))
    (hsf : ∀ k vs, (k, vs) ∈ gs → ∀ iv ∈ vs,
      cap.extractFails iv.2 (schemaOfKey presets cfg k) = false)
    (hok : ∀ k vs, (k, vs) ∈ gs → ∀ iv ∈ vs,
      (parseExtractionResult (cap.rawOf iv.2 (schemaOfKey presets cfg k))
        ic is).isOk = true) :
    ∃ ws, processGroups cap cfg presets bs ic is gs = .ok ws ∧
      (∀ jr ∈ ws, ∃ k vs t, (k, vs) ∈ gs ∧ (jr.1, t) ∈ vs ∧
        jr.2 = parseValue cap t (schemaOfKey presets cfg k) ic is) ∧
      (∀ k vs, (k, vs) ∈ gs → ∀ iv ∈ vs, ∃ r, (iv.1, r) ∈ ws) := by
  induction gs with
  | nil =>
    refine ⟨[], rfl, ?_, ?_⟩
    · intro jr hjr
      cases hjr
    · intro k vs h
      cases h
  | cons g rest ih =>
    obtain ⟨k, vs⟩ := g
    have hb : batch_extract cap cfg (vs.map (fun iv => iv.2))
        (some (schemaForKey presets cfg k).1)
        (some (schemaForKey presets cfg k).2) bs ic is =
        .ok (vs.map
          (fun iv => parseValue cap iv.2 (schemaOfKey presets cfg k) ic is)) := by
      rw [batch_extract_all_ok cap cfg (vs.map (fun iv => iv.2))
          (schemaForKey presets cfg k).1 (schemaForKey presets cfg k).2 bs ic is
          (by
            intro t ht
            rcases List.mem_map.mp ht with ⟨iv, hiv, he⟩
            rw [← he]
            exact hsf k vs (by simp) iv hiv)
          (by
            intro t ht
            rcases List.mem_map.mp ht with ⟨iv, hiv, he⟩
            rw [← he]
            exact hok k vs (by simp) iv hiv)]
      rw [List.map_map]
      rfl
    rcases ih (fun k' vs' h' => hsf k' vs' (by simp [h']))
        (fun k' vs' h' => hok k' vs' (by simp [h'])) with ⟨ws0, hws0, hcan0, hcov0⟩
    have hzip : vs.zip (vs.map
          (fun iv => parseValue cap iv.2 (schemaOfKey presets cfg k) ic is)) =
        vs.map (fun p =>
          (p, parseValue cap p.2 (schemaOfKey presets cfg k) ic is)) := by
      have hz := List.zip_map' id
        (fun p : Nat × String =>
          parseValue cap p.2 (schemaOfKey presets cfg k) ic is) vs
      simpa using hz
    refine ⟨vs.map (fun p =>
        (p.1, parseValue cap p.2 (schemaOfKey presets cfg k) ic is)) ++ ws0,
      ?_, ?_, ?_⟩
    · simp only [processGroups]
      rw [hb]
      simp only [exceptOkBind]
      rw [hws0]
      simp only [exceptOkBind, hzip, List.map_map]
      rfl

    · intro jr hjr
      rcases List.mem_append.mp hjr with hin | hin
      · rcases List.mem_map.mp hin with ⟨p, hp, he⟩
        refine ⟨k, vs, p.2, by simp, ?_, ?_⟩
        · rw [← he]
          simpa using hp
        · rw [← he]
      · rcases hcan0 jr hin with ⟨k', vs', t', h1, h2, h3⟩
        exact ⟨k', vs', t', by simp [h1], h2, h3⟩
    · intro k' vs' h' iv hiv
      rcases List.mem_cons.mp h' with he | hm
      · have hk : k' = k := congrArg Prod.fst he
        have hv : vs' = vs := congrArg Prod.snd he
        subst hk
        subst hv
        refine ⟨parseValue cap iv.2 (schemaOfKey presets cfg k') ic is, ?_⟩
        apply List.mem_append_left
        exact List.mem_map.mpr ⟨iv, hiv, rfl⟩
      · rcases hcov0 k' vs' hm iv hiv with ⟨r, hr⟩
        exact ⟨r, List.mem_append_right _ hr⟩

/-! Last-write-wins reads of the scatter dictionary. -/

theorem writeLookup_canonical (v : Nat → ExtractionResult) (i : Nat) :
    ∀ (ws : List (Nat × ExtractionResult)) (acc : Option ExtractionResult),
    (∀ jr ∈ ws, jr.2 = v jr.1) →
    (acc = none ∨ acc = some (v i)) →
    (ws.foldl (fun acc jr => if jr.1 = i then some jr.2 else acc) acc = none ∨
     ws.foldl (fun acc jr => if jr.1 = i then some jr.2 else acc) acc =
       some (v i)) := by
  intro ws
  induction ws with
  | nil => intro acc _ hacc; exact hacc
  | cons jr rest ih =>
    intro acc hall hacc
    rw [List.foldl_cons]
    apply ih _ (fun x hx => hall x (by simp [hx]))
    by_cases hj : jr.1 = i
    · rw [if_pos hj]
      right
      rw [hall jr (by simp), hj]
    · rw [if_neg hj]
      exact hacc

theorem writeLookup_covers (i : Nat) :
    ∀ (ws : List (Nat × ExtractionResult)) (acc : Option ExtractionResult),
    ((∃ r, (i, r) ∈ ws) ∨ acc.isSome = true) →
    (ws.foldl (fun acc jr => if jr.1 = i then some jr.2 else acc)
      acc).isSome = true := by
  intro ws
  induction ws with
  | nil =>
    intro acc h
    rcases h with ⟨r, hr⟩ | hs
    · cases hr
    · exact hs
  | cons jr rest ih =>
    intro acc h
    rw [List.foldl_cons]
    apply ih
    rcases h with ⟨r, hr⟩ | hs
    · rcases List.mem_cons.mp hr with he | hm
      · right
        rw [← he]
        simp
      · exact Or.inl ⟨r, hm⟩
    · right
      by_cases hj : jr.1 = i
      · rw [if_pos hj]; rfl
      · rw [if_neg hj]; exact hs

theorem writeLookup_eq (ws : List (Nat × ExtractionResult))
    (v : Nat → ExtractionResult) (i : Nat)
    (hall : ∀ jr ∈ ws, jr.2 = v jr.1) (hex : ∃ r, (i, r) ∈ ws) :
    writeLookup ws i = some (v i) := by
  have hc := writeLookup_canonical v i ws none hall (Or.inl rfl)
  have hs := writeLookup_covers i ws none (Or.inl hex)
  unfold writeLookup
  rcases hc with h | h
  · rw [h] at hs
    simp [Option.isSome] at hs
  · exact h

/-- C1: the auto-domain pipeline preserves input order end to end — its
output is, position for position, the normalised capability extraction of
each input text under the schema of the group the text was routed to,
regardless of how many distinct domain groups are formed.  The hypotheses
restrict attention to a well-behaved capability: single-item extraction
calls do not raise and every raw result normalises (failures instead follow
the C2/C4 degradation paths). -/
theorem c1_auto_domains_order (cap : Capability) (cfg : Config)
    (presets : List (String × Preset)) (texts : List String) (bs : Nat)
    (thr : ℚ) (maxd : Nat) (ic is : Bool) (hbs : 0 < bs)
    (hsf : ∀ t s, cap.extractFails t s = false)
    (hok : ∀ t s, (parseExtractionResult (cap.rawOf t s) ic is).isOk = true) :
    batch_extract_with_auto_domains cap cfg presets texts bs thr maxd ic is =
      .ok (texts.map (fun t =>
        parseValue cap t
          (schemaOfKey presets cfg (routedKey cap texts bs thr maxd t))
          ic is)) := by
  have hP : ∀ y ∈ autoEnum cap texts bs thr maxd,
      (fun (iv : Nat × String) (k : List String) =>
        iv.1 < texts.length ∧ iv.2 = texts.getD iv.1 "" ∧
        k = routedKey cap texts bs thr maxd iv.2) (y.1, y.2.1)
        (keyOfLabels (labelsOf y.2.2)) := by
    intro y hy
    rcases List.mem_iff_getElem.mp hy with ⟨m, hm, he⟩
    have hm' : m < texts.length := by rwa [autoEnum_length] at hm
    rw [← he, autoEnum_getElem cap texts bs thr maxd m hm']
    exact ⟨hm', (List.getD_eq_getElem texts "" hm').symm, rfl⟩
  have hsound := buildGroups_sound
    (fun (iv : Nat × String) (k : List String) =>
      iv.1 < texts.length ∧ iv.2 = texts.getD iv.1 "" ∧
      k = routedKey cap texts bs thr maxd iv.2)
    (autoEnum cap texts bs thr maxd) hP
  rcases processGroups_all_ok cap cfg presets bs ic is
      (autoGroups cap texts bs thr maxd)
      (fun k vs _ iv _ => hsf iv.2 _)
      (fun k vs _ iv _ => hok iv.2 _) with ⟨ws, hws, hcan, hcov⟩
  have hcanon : ∀ jr ∈ ws, jr.2 =
      (fun i => parseValue cap (texts.getD i "")
        (schemaOfKey presets cfg
          (routedKey cap texts bs thr maxd (texts.getD i ""))) ic is) jr.1 := by
    intro jr hjr
    rcases hcan jr hjr with ⟨k, vs, t, hg, hmemv, hval⟩
    rcases hsound k vs hg (jr.1, t) hmemv with ⟨hlt, ht, hk⟩
    simp only at ht hk
    simp only
    rw [hval, hk, ht]
  have hevery : ∀ i, i < texts.length → ∃ r, (i, r) ∈ ws := by
    intro i hi
    rcases buildGroups_mem (autoEnum cap texts bs thr maxd) _
      (autoEnum_mem cap texts bs thr maxd i hi) with ⟨vs, hg, hv⟩
    exact hcov _ _ hg (i, texts[i]) hv
  have hwl : ∀ i, i < texts.length → writeLookup ws i =
      some (parseValue cap (texts.getD i "")
        (schemaOfKey presets cfg
          (routedKey cap texts bs thr maxd (texts.getD i ""))) ic is) :=
    fun i hi => writeLookup_eq ws
      (fun i => parseValue cap (texts.getD i "")
        (schemaOfKey presets cfg
          (routedKey cap texts bs thr maxd (texts.getD i ""))) ic is)
      i hcanon (hevery i hi)
  unfold batch_extract_with_auto_domains
  rw [hws]
  simp only [exceptOkBind]
  rw [mapM_ok_of_forall_ok _
    (fun i => parseValue cap (texts.getD i "")
      (schemaOfKey presets cfg
        (routedKey cap texts bs thr maxd (texts.getD i ""))) ic is) _
    (fun i hi => by rw [hwl i (List.mem_range.mp hi)])]
  congr 1
  apply List.ext_getElem
  · simp
  · intro i h1 h2
    simp only [List.getElem_map, List.getElem_range]
    rw [List.getD_eq_getElem texts ""
      (by simpa using h1)]

/-- Concrete instance for C1: two texts routed to the `legal` group come
back in input order, each the normalised extraction of its own text. -/
theorem c1_auto_domains_order_witness :
    batch_extract_with_auto_domains demoClsCap builtinConfig
        [("legal", demoLegalPreset)] ["pure legal text", "legal code text"]
        32 0 1 true true =
      .ok [{ entities := [], relations := [] },
           { entities := [], relations := [] }] :=
  (c1_auto_domains_order demoClsCap builtinConfig [("legal", demoLegalPreset)]
      ["pure legal text", "legal code text"] 32 0 1 true true
      (by decide) (fun _ _ => rfl) (fun _ _ => rfl)).trans
    (by with_unfolding_all decide)
